import Mathlib

/-!
# Verification of the tiered commitment accumulator (`src/eternity.rs`)

This file embeds the `Eternity` accumulator of the repository: a three-tier
nested, fixed-capacity (65,536 slots per tier), append-only hashing container
with a global commitment index, supporting `insert`, `witness`, `forget`,
`root`, `len`, and the bulk insertion variants.

The Rust module `eternity.rs` is translated directly.  The generic `Tier`
engine, `Epoch`/`Block` internals, and the proof/verify logic live outside the
provided sources, so they are modelled from the specification (documented on
each such definition).

The hash primitive is an external collision-resistant function; it is modelled
as a free term algebra (leaf hashing and child combination are injective
constructors), which makes hash equalities hold exactly when the spec's
assumption of collision resistance would force them to.
-/

set_option maxHeartbeats 1000000

namespace Penumbra

/-- Opaque, equality-comparable leaf value (`Commitment`); semantics owned by
the caller, so modelled as a bare natural number. -/
abbrev Commitment := Nat

/-- Modelled from the spec: the fixed hash/compression primitive, supplied by
an external cryptographic library.  `of` is `Hash::of(Commitment)`; child
combination is the free fold of `consNode`/`emptyNode` over the ordered list
of child hashes, so distinct child lists give distinct digests exactly as
collision resistance assumes. -/
inductive Hash where
  | of : Commitment → Hash
  | emptyNode : Hash
  | consNode : Hash → Hash → Hash
deriving DecidableEq, Repr

/-- Combine an ordered list of child hashes into a parent hash. -/
def Hash.node (l : List Hash) : Hash := l.foldr Hash.consNode Hash.emptyNode

/-- `Insert<T>`: either a materialized (witnessable) subtree (`Insert::Keep`)
or a subtree elided to its hash only (`Insert::Hash`). -/
inductive Insert (α : Type) where
  | keep : α → Insert α
  | hash : Hash → Insert α
deriving DecidableEq, Repr

/-- Modelled from the spec: `Tier<Item>`, the innermost tier — the ordered
slots of a block, each a kept commitment or its bare hash. -/
abbrev BlockTier := List (Insert Commitment)

/-- Modelled from the spec: `Tier<Tier<Item>>`, the slots of an epoch. -/
abbrev EpochTier := List (Insert BlockTier)

/-- Modelled from the spec: `Tier<Tier<Tier<Item>>>`, the top-level tier. -/
abbrev TopTier := List (Insert EpochTier)

/-- Tier capacity: 65,536 slots at every level. -/
def cap : Nat := 65536

/-- `index::within::Eternity`: the 48-bit position decomposed into its three
16-bit fields. -/
structure Pos where
  epoch : Nat
  block : Nat
  item : Nat
deriving DecidableEq, Repr

/-- Hash contributed by a leaf slot: `Hash::of` of a kept commitment, or the
stored hash of an elided one.  Forgetting swaps `keep c` for
`hash (Hash.of c)`, so this contribution never changes. -/
def itemHash : Insert Commitment → Hash
  | .keep c => .of c
  | .hash h => h

/-- Root hash of a block: combination of its slots' hashes. -/
def blockHash (b : BlockTier) : Hash := Hash.node (b.map itemHash)

/-- Hash contributed by a block slot of an epoch. -/
def blockSlotHash : Insert BlockTier → Hash
  | .keep b => blockHash b
  | .hash h => h

/-- Root hash of an epoch: combination of its block slots' hashes. -/
def epochHash (e : EpochTier) : Hash := Hash.node (e.map blockSlotHash)

/-- Hash contributed by an epoch slot of the top tier. -/
def epochSlotHash : Insert EpochTier → Hash
  | .keep e => epochHash e
  | .hash h => h

/-- Root hash of the top tier (the accumulator root). -/
def topHash (t : TopTier) : Hash := Hash.node (t.map epochSlotHash)

/-- The commitment index: a finite map from commitments to positions,
mirroring `HashedMap<Commitment, index::within::Eternity>`. -/
abbrev IndexMap := List (Commitment × Pos)

/-- Map lookup (`HashedMap::get`). -/
def mapGet (m : IndexMap) (c : Commitment) : Option Pos :=
  (m.find? (fun e => e.1 == c)).map (·.2)

/-- Map insertion (`HashedMap::insert`): stores the binding and returns the
value it replaced, if any. -/
def mapInsert (m : IndexMap) (c : Commitment) (p : Pos) : IndexMap × Option Pos :=
  ((c, p) :: m.filter (fun e => e.1 != c), mapGet m c)

/-- Map removal (`HashedMap::remove`). -/
def mapRemove (m : IndexMap) (c : Commitment) : IndexMap :=
  m.filter (fun e => e.1 != c)

/-- The accumulator: global index plus the three-tier commitment tree
(`Eternity { index, inner }`). -/
structure Eternity where
  index : IndexMap
  inner : TopTier
deriving DecidableEq, Repr

/-- `Eternity::new` / `Default::default`. -/
def Eternity.empty : Eternity := ⟨[], []⟩

/-- `Eternity::root`. -/
def Eternity.root (s : Eternity) : Hash := topHash s.inner

/-- Modelled from the spec: the tier's single mutable "open" slot is the most
recently appended one; `focus()` returns it. -/
def focusOf (l : List α) : Option α := l[l.length - 1]?

/-- Modelled from the spec: `Tier::forget(position)` — walk the position's
path down the tiers and, if the leaf slot is `Full`, replace it with
`Summary` of its cached hash; report whether anything changed.  No cached
hash is ever altered. -/
def tierForget (t : TopTier) (p : Pos) : TopTier × Bool :=
  match t[p.epoch]? with
  | some (.keep e) =>
    match e[p.block]? with
    | some (.keep b) =>
      match b[p.item]? with
      | some (.keep c) =>
        (t.set p.epoch (.keep (e.set p.block (.keep (b.set p.item (.hash (.of c)))))), true)
      | _ => (t, false)
    | _ => (t, false)
  | _ => (t, false)

/-- `Eternity::forget`: look the commitment up in the global index, forget its
position in the tree, and drop the index entry; returns whether the
commitment was previously witnessed. -/
def Eternity.forget (s : Eternity) (c : Commitment) : Eternity × Bool :=
  match mapGet s.index c with
  | some p => (⟨mapRemove s.index c, (tierForget s.inner p).1⟩, true)
  | none => (s, false)

/-- The leaf slot a position points at, when the whole path is materialized. -/
def tierLeafAt (t : TopTier) (p : Pos) : Option (Insert Commitment) :=
  match t[p.epoch]? with
  | some (.keep e) =>
    match e[p.block]? with
    | some (.keep b) => b[p.item]?
    | _ => none
  | _ => none

/-- The leaf slot a position points at in the accumulator's tree. -/
def Eternity.leafAt (s : Eternity) (p : Pos) : Option (Insert Commitment) :=
  tierLeafAt s.inner p

/-- The global index invariant: every index entry points through an unbroken
chain of `Full` nodes to a `Full` leaf holding exactly that commitment. -/
def Eternity.Valid (s : Eternity) : Prop :=
  ∀ cp ∈ s.index, s.leafAt cp.2 = some (.keep cp.1)

instance (s : Eternity) : Decidable s.Valid := by
  unfold Eternity.Valid; infer_instance

/-! ## Insertion -/

/-- `Witness`: the caller's stated intent for whether the new leaf must remain
witnessable (`Keep`) or may be immediately elided (`Forget`). -/
inductive Witness where
  | keep : Witness
  | forget : Witness
deriving DecidableEq, Repr

/-- `InsertError` (`eternity.rs` lines 33–50). -/
inductive InsertError where
  | full : InsertError
  | epochFull : InsertError
  | epochForgotten : InsertError
  | blockFull : InsertError
  | blockForgotten : InsertError
deriving DecidableEq, Repr

/-- `Block`: `Tier<Item>` plus a local commitment → item-offset index. -/
structure Block where
  index : List (Commitment × Nat)
  inner : BlockTier
deriving DecidableEq, Repr

/-- `Epoch`: `Tier<Tier<Item>>` plus a local commitment → (block, item)
index (`index::within::Epoch`). -/
structure Epoch where
  index : List (Commitment × Nat × Nat)
  inner : EpochTier
deriving DecidableEq, Repr

/-- `Epoch::new`. -/
def Epoch.new : Epoch := ⟨[], []⟩

/-- `InsertBlockError` (lines 53–64): every variant returns the rejected
`Block`. -/
inductive InsertBlockError where
  | full : Block → InsertBlockError
  | epochFull : Block → InsertBlockError
  | epochForgotten : Block → InsertBlockError
deriving DecidableEq, Repr

/-- `InsertBlockRootError` (lines 67–78): no variant carries a payload. -/
inductive InsertBlockRootError where
  | full : InsertBlockRootError
  | epochFull : InsertBlockRootError
  | epochForgotten : InsertBlockRootError
deriving DecidableEq, Repr

/-- `InsertEpochError` (line 83): carries the rejected `Epoch`. -/
structure InsertEpochError where
  epoch : Epoch
deriving DecidableEq, Repr

/-- `InsertEpochRootError` (line 88): a payload-free unit struct. -/
inductive InsertEpochRootError where
  | mk : InsertEpochRootError
deriving DecidableEq, Repr

/-- Modelled from the spec: appending one item into the open block of the
focused epoch, with the index-threading handle writing a `Keep` item's
position directly into the global map and reporting the replaced position.
Fails with `BlockFull` when the open block has no remaining capacity. -/
def blockAppend (thisEpoch thisBlock : Nat) (gidx : IndexMap) (b : BlockTier)
    (item : Insert Commitment) :
    Except InsertError (BlockTier × IndexMap × Option Pos) :=
  if cap ≤ b.length then .error .blockFull
  else
    match item with
    | .keep c =>
      let (gidx', replaced) := mapInsert gidx c ⟨thisEpoch, thisBlock, b.length⟩
      .ok (b ++ [item], gidx', replaced)
    | .hash _ => .ok (b ++ [item], gidx, none)

/-- Modelled from the spec: opening a new child happens lazily — the first
insertion against an empty epoch auto-creates its first block. -/
def epochEnsure (e : EpochTier) : EpochTier :=
  if e.isEmpty then e ++ [.keep []] else e

/-- Modelled from the spec: `EpochMut::insert` under the
`IndexMut::Eternity` threading handle.  The first insertion against an empty
epoch lazily opens a block; a `Summary` open block rejects with
`BlockForgotten`; otherwise the item is appended to the open block. -/
def epochInsertItem (thisEpoch : Nat) (gidx : IndexMap) (e : EpochTier)
    (item : Insert Commitment) :
    Except InsertError (EpochTier × IndexMap × Option Pos) :=
  let e' := epochEnsure e
  match focusOf e' with
  | some (.keep b) =>
    match blockAppend thisEpoch (e'.length - 1) gidx b item with
    | .error err => .error err
    | .ok (b', gidx', rep) => .ok (e'.set (e'.length - 1) (.keep b'), gidx', rep)
  | some (.hash _) => .error .blockForgotten
  | none => .error .epochFull

/-- `Eternity::insert_epoch_or_root` (lines 306–347): append the epoch (or its
bare root) as a new top-tier slot, then absorb the epoch's local index into
the global index with the epoch coordinate composed in, forgetting any
replaced positions.  On a full top tier the original argument is returned. -/
def Eternity.insertEpochOrRoot (s : Eternity) (ep : Insert Epoch) :
    Eternity × Option (Insert Epoch) :=
  let thisEpoch := s.inner.length
  if cap ≤ s.inner.length then (s, some ep)
  else
    let (tierItem, epIndex) :=
      match ep with
      | .hash h => ((Insert.hash h : Insert EpochTier), ([] : List (Commitment × Nat × Nat)))
      | .keep e => (Insert.keep e.inner, e.index)
    let s' := epIndex.foldl
      (fun (st : Eternity) entry =>
        let (m', rep) := mapInsert st.index entry.1 ⟨thisEpoch, entry.2.1, entry.2.2⟩
        match rep with
        | some pOld => ⟨m', (tierForget st.inner pOld).1⟩
        | none => ⟨m', st.inner⟩)
      ⟨s.index, s.inner ++ [tierItem]⟩
    (s', none)

/-- `Eternity::insert_epoch` (lines 274–283). -/
def Eternity.insertEpoch (s : Eternity) (e : Epoch) :
    Eternity × Option InsertEpochError :=
  let r := s.insertEpochOrRoot (.keep e)
  if r.2.isSome then (r.1, some ⟨e⟩) else (r.1, none)

/-- `Eternity::insert_epoch_root` (lines 291–303). -/
def Eternity.insertEpochRoot (s : Eternity) (h : Hash) :
    Eternity × Option InsertEpochRootError :=
  let r := s.insertEpochOrRoot (.hash h)
  if r.2.isSome then (r.1, some .mk) else (r.1, none)

/-- The top tier after the lazy auto-creation of the first epoch on an empty
accumulator. -/
def topEnsure (t : TopTier) : TopTier :=
  if t.isEmpty then [.keep []] else t

/-- The body of `insert_commitment_or_root` after its emptiness pre-step:
reject with `EpochForgotten` when the open epoch is a bare root; otherwise
delegate into the open epoch, and forget the position the index write
evicted, if any. -/
def insertCore (idx : IndexMap) (T : TopTier) (item : Insert Commitment) :
    Eternity × Option InsertError :=
  let thisEpoch := T.length - 1
  match focusOf T with
  | some (.keep e) =>
    match epochInsertItem thisEpoch idx e item with
    | .error err => (⟨idx, T⟩, some err)
    | .ok (e', idx', rep) =>
      let s₂ : Eternity := ⟨idx', T.set thisEpoch (.keep e')⟩
      match rep with
      | none => (s₂, none)
      | some pOld => (⟨s₂.index, (tierForget s₂.inner pOld).1⟩, none)
  | some (.hash _) => (⟨idx, T⟩, some .epochForgotten)
  | none => (⟨idx, T⟩, some .epochForgotten)

/-- `Eternity::insert_commitment_or_root` (lines 162–188): auto-open a first
epoch when empty, then run the insertion body. -/
def Eternity.insertCR (s : Eternity) (item : Insert Commitment) :
    Eternity × Option InsertError :=
  let pre := if s.inner.isEmpty then s.insertEpoch Epoch.new else (s, none)
  if pre.2.isSome then (pre.1, some .full)
  else insertCore pre.1.index pre.1.inner item

/-- `Eternity::insert` (lines 117–123): `Keep` stores the commitment itself,
`Forget` stores only its hash; any failure hands the commitment back. -/
def Eternity.insert (s : Eternity) (w : Witness) (c : Commitment) :
    Eternity × Option Commitment :=
  let item : Insert Commitment :=
    match w with
    | .keep => .keep c
    | .forget => .hash (.of c)
  let r := s.insertCR item
  if r.2.isSome then (r.1, some c) else (r.1, none)

/-- `Eternity::insert_block` (lines 198–228): append the block as a new slot
of the open epoch, absorb its local index with composed positions, and forget
every replaced position; all failures return the rejected block. -/
def Eternity.insertBlock (s : Eternity) (b : Block) :
    Eternity × Option InsertBlockError :=
  let pre := if s.inner.isEmpty then s.insertEpoch Epoch.new else (s, none)
  let s₁ := pre.1
  if pre.2.isSome then (s₁, some (.full b))
  else
    let thisEpoch := s₁.inner.length - 1
    match focusOf s₁.inner with
    | some (.keep e) =>
      if cap ≤ e.length then (s₁, some (.epochFull b))
      else
        let thisBlock := e.length
        let s₂ : Eternity := ⟨s₁.index, s₁.inner.set thisEpoch (.keep (e ++ [.keep b.inner]))⟩
        let s₃ := b.index.foldl
          (fun (st : Eternity) entry =>
            let (m', rep) := mapInsert st.index entry.1 ⟨thisEpoch, thisBlock, entry.2⟩
            match rep with
            | some pOld => ⟨m', (tierForget st.inner pOld).1⟩
            | none => ⟨m', st.inner⟩)
          s₂
        (s₃, none)
    | some (.hash _) => (s₁, some (.epochForgotten b))
    | none => (s₁, some (.epochForgotten b))

/-- `Eternity::insert_block_root` (lines 237–266): append a summary-only block
to the open epoch; contributes no index entries, and the error reports only
the failing condition. -/
def Eternity.insertBlockRoot (s : Eternity) (h : Hash) :
    Eternity × Option InsertBlockRootError :=
  let pre := if s.inner.isEmpty then s.insertEpoch Epoch.new else (s, none)
  let s₁ := pre.1
  if pre.2.isSome then (s₁, some .full)
  else
    let thisEpoch := s₁.inner.length - 1
    match focusOf s₁.inner with
    | some (.keep e) =>
      if cap ≤ e.length then (s₁, some .epochFull)
      else (⟨s₁.index, s₁.inner.set thisEpoch (.keep (e ++ [.hash h]))⟩, none)
    | some (.hash _) => (s₁, some .epochForgotten)
    | none => (s₁, some .epochForgotten)

/-! ## Witnessing and verification -/

/-- The ordered sibling-hash sets for the three levels of a leaf's path. -/
structure AuthPath where
  epochSibs : List Hash
  blockSibs : List Hash
  itemSibs : List Hash
deriving DecidableEq, Repr

/-- `Proof`: position, per-level sibling hashes, and the leaf commitment. -/
structure Proof where
  position : Pos
  authPath : AuthPath
  leaf : Commitment
deriving DecidableEq, Repr

/-- Modelled from the spec: `Tier::witness(position)` — walk the position's
path, returning `None` as soon as a `Summary` node is encountered, else the
ordered sibling hashes at each level together with the leaf hash. -/
def tierWitness (t : TopTier) (p : Pos) : Option (AuthPath × Hash) :=
  match t[p.epoch]? with
  | some (.keep e) =>
    match e[p.block]? with
    | some (.keep b) =>
      match b[p.item]? with
      | some (.keep c) =>
        some (⟨(t.map epochSlotHash).eraseIdx p.epoch,
               (e.map blockSlotHash).eraseIdx p.block,
               (b.map itemHash).eraseIdx p.item⟩, .of c)
      | _ => none
    | _ => none
  | _ => none

/-- `Eternity::witness` (lines 128–139): an absent index entry yields an
absent proof; a present entry is forwarded into the tier walk. -/
def Eternity.witness (s : Eternity) (c : Commitment) : Option Proof :=
  match mapGet s.index c with
  | none => none
  | some p =>
    match tierWitness s.inner p with
    | none => none
    | some (ap, _) => some ⟨p, ap, c⟩

/-- Re-insert a hash among its siblings at its slot index; `none` when the
index does not fit the sibling count (a structural mismatch). -/
def insertAt : Nat → Hash → List Hash → Option (List Hash)
  | 0, x, l => some (x :: l)
  | _ + 1, _, [] => none
  | n + 1, x, a :: l => (insertAt n x l).map (a :: ·)

/-- Modelled from the spec: `VerifyError` distinguishes a structural
mismatch (wrong sibling count/shape) from a digest mismatch (well-formed
path, wrong root). -/
inductive VerifyError where
  | structuralMismatch : VerifyError
  | digestMismatch : VerifyError
deriving DecidableEq, Repr

/-- A proof plus evidence it was checked against a specific root. -/
structure VerifiedProof where
  proof : Proof
  root : Hash
deriving DecidableEq, Repr

/-- Modelled from the spec: re-derive the root claimed by a proof, combining
the leaf hash with the siblings level-by-level with the same combine function
as the tier hash, using the position's per-level index for slot ordering. -/
def recomputeRoot (p : Proof) : Option Hash :=
  match insertAt p.position.item (Hash.of p.leaf) p.authPath.itemSibs with
  | none => none
  | some bh =>
    match insertAt p.position.block (Hash.node bh) p.authPath.blockSibs with
    | none => none
    | some eh =>
      match insertAt p.position.epoch (Hash.node eh) p.authPath.epochSibs with
      | none => none
      | some th => some (Hash.node th)

/-- Modelled from the spec: `verify(proof, claimed_root)` — success iff the
recomputed value equals the claimed root. -/
def verify (p : Proof) (r : Hash) : Except VerifyError VerifiedProof :=
  match recomputeRoot p with
  | none => .error .structuralMismatch
  | some h => if h = r then .ok ⟨p, r⟩ else .error .digestMismatch

/-! ## `len` and `is_empty` -/

/-- The focus contribution of `Eternity::len` (lines 358–368): `u32::MAX` for
a summary-only open epoch, `u16::MAX` for a summary-only open block, else the
open block's length as a `u16`. -/
def lenFocusTerm : Option (Insert EpochTier) → Nat
  | none => 0
  | some (.hash _) => 4294967295
  | some (.keep e) =>
    match focusOf e with
    | none => 0
    | some (.hash _) => 65535
    | some (.keep b) => b.length % 65536

/-- `Eternity::len` (lines 356–369): `(inner.len() << 32)` plus the focus
term shifted left by 16 in `u32` arithmetic (hence reduced mod `2^32`)
before widening to `u64`. -/
def Eternity.len (s : Eternity) : Nat :=
  s.inner.length * 2 ^ 32 + (lenFocusTerm (focusOf s.inner) * 2 ^ 16) % 2 ^ 32

/-- `Eternity::is_empty` (lines 372–374). -/
def Eternity.isEmpty (s : Eternity) : Bool := s.inner.isEmpty

/-! ## Concrete states and iterated insertions used by the theorems -/

/-- A concrete one-commitment accumulator used to instantiate theorems. -/
def exOne : Eternity := ⟨[(0, ⟨0, 0, 0⟩)], [.keep [.keep [.keep 0]]]⟩

/-- The rejected block carried by every `InsertBlockError` variant. -/
def InsertBlockError.block : InsertBlockError → Block
  | .full b => b
  | .epochFull b => b
  | .epochForgotten b => b

/-- The accumulator after `insert(Keep, 0)`, `insert(Keep, 1)`,
`insert(Forget, 2)` on a fresh accumulator. -/
def scenarioKKD : Eternity :=
  (((Eternity.empty.insert .keep 0).1.insert .keep 1).1.insert .forget 2).1

/-- The accumulator holding one epoch holding one block of `n` hashed copies
of commitment `c`: the state reached by `n` `insert(Forget, c)` calls. -/
def repForgetState (c : Commitment) (n : Nat) : Eternity :=
  ⟨[], [.keep [.keep (List.replicate n (.hash (.of c)))]]⟩

/-- `n`-fold iteration of `insert(Forget, c)` from the empty accumulator. -/
def insertIterF (c : Commitment) : Nat → Eternity
  | 0 => .empty
  | n + 1 => ((insertIterF c n).insert .forget c).1

/-- The accumulator holding one epoch of `n` summary-only blocks with root
`h`: the state reached by `n` `insert_block_root(h)` calls. -/
def blockRootState (h : Hash) (n : Nat) : Eternity :=
  ⟨[], [.keep (List.replicate n (.hash h))]⟩

/-- `n`-fold iteration of `insert_block_root(h)` from the empty
accumulator. -/
def insertIterBR (h : Hash) : Nat → Eternity
  | 0 => .empty
  | n + 1 => ((insertIterBR h n).insertBlockRoot h).1

/-- The accumulator holding `n` summary-only epochs with root `h`: the state
reached by `n` `insert_epoch_root(h)` calls. -/
def epochRootState (h : Hash) (n : Nat) : Eternity :=
  ⟨[], List.replicate n (.hash h)⟩

/-- `n`-fold iteration of `insert_epoch_root(h)` from the empty
accumulator. -/
def insertIterER (h : Hash) : Nat → Eternity
  | 0 => .empty
  | n + 1 => ((insertIterER h n).insertEpochRoot h).1

/-- The tree produced by a successful commitment insertion into a top tier
`T` whose focused epoch is `e` with focused block `b`: the item is appended
to that block. -/
def tset (T : TopTier) (e : EpochTier) (item : Insert Commitment) (b : BlockTier) : TopTier :=
  T.set (T.length - 1)
    (.keep ((epochEnsure e).set ((epochEnsure e).length - 1) (.keep (b ++ [item]))))

/-- The position assigned to a successful commitment insertion. -/
def newPos (T : TopTier) (e : EpochTier) (b : BlockTier) : Pos :=
  ⟨T.length - 1, (epochEnsure e).length - 1, b.length⟩

/-! ## Reachability and the growth order on trees

Every public operation only appends slots, evolves the focused slot, or
swaps a materialized leaf for its own hash.  `TopLe` captures the part of
this discipline needed to show that a root can never recur: slot counts at
every level never shrink, and a slot's materialization kind never changes. -/

/-- Growth order on block slots: kinds are preserved and a materialized
block never loses items. -/
def insLeB : Insert BlockTier → Insert BlockTier → Prop
  | .keep b, .keep b' => b.length ≤ b'.length
  | .hash _, .hash _ => True
  | _, _ => False

/-- Growth order on epochs: block slots are only appended, and surviving
slots grow according to `insLeB`. -/
def EpochLe (e e' : EpochTier) : Prop :=
  e.length ≤ e'.length ∧
  ∀ (i : Nat) (x : Insert BlockTier), e[i]? = some x → ∃ y, e'[i]? = some y ∧ insLeB x y

/-- Growth order on epoch slots. -/
def insLeE : Insert EpochTier → Insert EpochTier → Prop
  | .keep e, .keep e' => EpochLe e e'
  | .hash _, .hash _ => True
  | _, _ => False

/-- Growth order on top tiers. -/
def TopLe (t t' : TopTier) : Prop :=
  t.length ≤ t'.length ∧
  ∀ (i : Nat) (x : Insert EpochTier), t[i]? = some x → ∃ y, t'[i]? = some y ∧ insLeE x y

/-- One public mutating operation of the accumulator. -/
inductive Step : Eternity → Eternity → Prop where
  | insert (s : Eternity) (w : Witness) (c : Commitment) : Step s (s.insert w c).1
  | insertBlock (s : Eternity) (b : Block) : Step s (s.insertBlock b).1
  | insertBlockRoot (s : Eternity) (h : Hash) : Step s (s.insertBlockRoot h).1
  | insertEpoch (s : Eternity) (e : Epoch) : Step s (s.insertEpoch e).1
  | insertEpochRoot (s : Eternity) (h : Hash) : Step s (s.insertEpochRoot h).1
  | forget (s : Eternity) (c : Commitment) : Step s (s.forget c).1

/-- Reachability through any sequence of public operations. -/
inductive Reach : Eternity → Eternity → Prop where
  | refl (s : Eternity) : Reach s s
  | tail {s t u : Eternity} : Reach s t → Step t u → Reach s u

/-! ## Basic lemmas -/

theorem List.set_self {α : Type _} (l : List α) (i : Nat) (v : α)
    (h : l[i]? = some v) : l.set i v = l := by
  induction l generalizing i with
  | nil => simp at h
  | cons a t ih =>
    cases i with
    | zero => simp at h; simp [h]
    | succ n => simp at h ⊢; exact ih n h

theorem Hash.node_inj {l l' : List Hash} (h : Hash.node l = Hash.node l') :
    l = l' := by
  induction l generalizing l' with
  | nil => cases l' with
    | nil => rfl
    | cons a t => simp [Hash.node] at h
  | cons a t ih =>
    cases l' with
    | nil => simp [Hash.node] at h
    | cons a' t' =>
      have h' : Hash.consNode a (Hash.node t) = Hash.consNode a' (Hash.node t') := h
      injection h' with h1 h2
      rw [h1, ih h2]

theorem mapGet_remove_self (m : IndexMap) (c : Commitment) :
    mapGet (mapRemove m c) c = none := by
  unfold mapGet mapRemove
  rw [List.find?_eq_none.2]
  · rfl
  · intro x hx
    have hx' := List.of_mem_filter hx
    simp only [bne_iff_ne, ne_eq] at hx'
    simpa using hx'

theorem mapGet_insert_self (m : IndexMap) (c : Commitment) (p : Pos) :
    mapGet (mapInsert m c p).1 c = some p := by
  simp [mapInsert, mapGet, List.find?]

theorem find?_filter_ne (m : IndexMap) (c c' : Commitment) (h : c' ≠ c) :
    (m.filter (fun e => e.1 != c)).find? (fun e => e.1 == c') =
      m.find? (fun e => e.1 == c') := by
  induction m with
  | nil => rfl
  | cons hd t ih =>
    obtain ⟨a, v⟩ := hd
    by_cases he' : a = c'
    · have h1 : ((a, v).1 != c) = true := by simp only [bne_iff_ne, ne_eq]; rw [he']; exact h
      have h2 : ((a, v).1 == c') = true := by simpa using he'
      rw [List.filter_cons, h1]
      simp only [if_true, List.find?, h2]
    · have h2 : ((a, v).1 == c') = false := by simpa using he'
      by_cases he : a = c
      · have h1 : ((a, v).1 != c) = false := by simpa using he
        rw [List.filter_cons, h1]
        simp only [Bool.false_eq_true, if_false, List.find?, h2, ih]
      · have h1 : ((a, v).1 != c) = true := by simpa using he
        rw [List.filter_cons, h1]
        simp only [if_true, List.find?, h2, ih]

theorem mapGet_insert_ne (m : IndexMap) (c c' : Commitment) (p : Pos)
    (h : c' ≠ c) : mapGet (mapInsert m c p).1 c' = mapGet m c' := by
  have hcc : (c == c') = false := by
    simp only [beq_eq_false_iff_ne, ne_eq]; exact Ne.symm h
  simp only [mapInsert, mapGet, List.find?, hcc]
  rw [find?_filter_ne _ _ _ h]

/-- Forgetting a position never changes the root: the replaced leaf's summary
hash is exactly the hash the materialized leaf contributed. -/
theorem tierForget_topHash (t : TopTier) (p : Pos) :
    topHash (tierForget t p).1 = topHash t := by
  unfold tierForget
  split
  case h_2 => rfl
  rename_i e hE
  split
  case h_2 => rfl
  rename_i b hB
  split
  case h_2 => rfl
  rename_i c hI
  show topHash (t.set p.epoch (.keep (e.set p.block
      (.keep (b.set p.item (.hash (.of c))))))) = topHash t
  have hb : blockHash (b.set p.item (.hash (.of c))) = blockHash b := by
    unfold blockHash
    rw [List.map_set]
    have h2 : (b.map itemHash)[p.item]? = some (itemHash (.keep c)) := by
      rw [List.getElem?_map, hI]; rfl
    rw [show itemHash (Insert.hash (Hash.of c)) = itemHash (.keep c) from rfl]
    rw [List.set_self _ _ _ h2]
  have he : epochHash (e.set p.block (.keep (b.set p.item (.hash (.of c))))) =
      epochHash e := by
    unfold epochHash
    rw [List.map_set]
    have h1 : blockSlotHash (.keep (b.set p.item (.hash (.of c)))) =
        blockSlotHash (.keep b) := by simp [blockSlotHash, hb]
    have h2 : (e.map blockSlotHash)[p.block]? = some (blockSlotHash (.keep b)) := by
      rw [List.getElem?_map, hB]; rfl
    rw [h1, List.set_self _ _ _ h2]
  unfold topHash
  rw [List.map_set]
  have h1 : epochSlotHash (.keep (e.set p.block
      (.keep (b.set p.item (.hash (.of c)))))) = epochSlotHash (.keep e) := by
    simp [epochSlotHash, he]
  have h2 : (t.map epochSlotHash)[p.epoch]? = some (epochSlotHash (.keep e)) := by
    rw [List.getElem?_map, hE]; rfl
  rw [h1, List.set_self _ _ _ h2]

/-! ## Evaluation lemmas for the single-commitment insertion path -/

theorem epochEnsure_ne_nil (e : EpochTier) : epochEnsure e ≠ [] := by
  cases e with
  | nil => simp [epochEnsure]
  | cons a t => simp [epochEnsure]

theorem focusOf_of_ne_nil {α : Type _} (l : List α) (h : l ≠ []) :
    ∃ x, focusOf l = some x := by
  have hlen : l.length - 1 < l.length := by
    cases l with
    | nil => exact absurd rfl h
    | cons a t => simp
  exact ⟨_, List.getElem?_eq_getElem hlen⟩

theorem insertCR_eq_core (s : Eternity) (item : Insert Commitment) :
    s.insertCR item = insertCore s.index (topEnsure s.inner) item := by
  unfold Eternity.insertCR topEnsure
  by_cases hemp : s.inner.isEmpty
  · have hS : s.inner = [] := List.isEmpty_iff.mp hemp
    have hpre : s.insertEpoch Epoch.new = ((⟨s.index, [.keep []]⟩ : Eternity), none) := by
      unfold Eternity.insertEpoch Eternity.insertEpochOrRoot
      rw [hS]
      norm_num [cap]
      rfl
    simp [hemp, hpre]
  · simp [hemp]

theorem insertCore_focus_hash (idx : IndexMap) (T : TopTier) (item : Insert Commitment)
    (hh : Hash) (h : focusOf T = some (.hash hh)) :
    insertCore idx T item = (⟨idx, T⟩, some .epochForgotten) := by
  unfold insertCore; rw [h]

theorem insertCore_focus_none (idx : IndexMap) (T : TopTier) (item : Insert Commitment)
    (h : focusOf T = none) :
    insertCore idx T item = (⟨idx, T⟩, some .epochForgotten) := by
  unfold insertCore; rw [h]

theorem insertCore_block_hash (idx : IndexMap) (T : TopTier) (item : Insert Commitment)
    (e : EpochTier) (hh : Hash)
    (hT : focusOf T = some (.keep e)) (hb : focusOf (epochEnsure e) = some (.hash hh)) :
    insertCore idx T item = (⟨idx, T⟩, some .blockForgotten) := by
  unfold insertCore epochInsertItem
  simp only [hT, hb]

theorem insertCore_block_full (idx : IndexMap) (T : TopTier) (item : Insert Commitment)
    (e : EpochTier) (b : BlockTier)
    (hT : focusOf T = some (.keep e)) (hb : focusOf (epochEnsure e) = some (.keep b))
    (hcap : cap ≤ b.length) :
    insertCore idx T item = (⟨idx, T⟩, some .blockFull) := by
  unfold insertCore epochInsertItem blockAppend
  simp only [hT, hb, if_pos hcap]

theorem insertCore_ok (idx : IndexMap) (T : TopTier) (item : Insert Commitment)
    (e : EpochTier) (b : BlockTier)
    (hT : focusOf T = some (.keep e)) (hb : focusOf (epochEnsure e) = some (.keep b))
    (hcap : b.length < cap) :
    insertCore idx T item =
      (match item with
        | .hash _ => ((⟨idx, tset T e item b⟩ : Eternity), none)
        | .keep c =>
          match mapGet idx c with
          | none => ((⟨(mapInsert idx c (newPos T e b)).1, tset T e item b⟩ : Eternity), none)
          | some pOld => (⟨(mapInsert idx c (newPos T e b)).1,
              (tierForget (tset T e item b) pOld).1⟩, none)) := by
  unfold insertCore epochInsertItem blockAppend
  simp only [hT, hb, if_neg (Nat.not_le.2 hcap)]
  cases item with
  | hash h => rfl
  | keep c =>
    cases hg : mapGet idx c with
    | none => simp [mapInsert, hg, tset, newPos]
    | some p => simp [mapInsert, hg, tset, newPos]

/-- Everything a successful `insert_commitment_or_root` tells us: the focused
epoch and block were materialized and not full, the item went to the end of
the focused block, a `Keep` item wrote the fresh position into the global
index (forgetting a replaced position in the tree), and a `Hash` item touched
no index at all. -/
theorem insertCR_ok_shape (s : Eternity) (item : Insert Commitment) (B : Eternity)
    (hok : s.insertCR item = (B, none)) :
    ∃ T e b,
      ((s.inner = [] ∧ T = [.keep []]) ∨ (s.inner ≠ [] ∧ T = s.inner)) ∧
      focusOf T = some (.keep e) ∧
      focusOf (epochEnsure e) = some (.keep b) ∧
      b.length < cap ∧
      (match item with
        | .hash _ => B = ⟨s.index, tset T e item b⟩
        | .keep c =>
          B.index = (mapInsert s.index c (newPos T e b)).1 ∧
          ((mapGet s.index c = none ∧ B.inner = tset T e item b) ∨
            (∃ pOld, mapGet s.index c = some pOld ∧
              B.inner = (tierForget (tset T e item b) pOld).1))) := by
  rw [insertCR_eq_core] at hok
  rcases hfT : focusOf (topEnsure s.inner) with _ | et
  · rw [insertCore_focus_none _ _ _ hfT] at hok
    exact absurd (congrArg Prod.snd hok) (by simp)
  · cases et with
    | hash hh =>
      rw [insertCore_focus_hash _ _ _ _ hfT] at hok
      exact absurd (congrArg Prod.snd hok) (by simp)
    | keep e =>
      rcases hfb : focusOf (epochEnsure e) with _ | bt
      · obtain ⟨x, hx⟩ := focusOf_of_ne_nil (epochEnsure e) (epochEnsure_ne_nil e)
        rw [hx] at hfb
        cases hfb
      · cases bt with
        | hash hh =>
          rw [insertCore_block_hash _ _ _ _ _ hfT hfb] at hok
          exact absurd (congrArg Prod.snd hok) (by simp)
        | keep b =>
          by_cases hcap : cap ≤ b.length
          · rw [insertCore_block_full _ _ _ _ _ hfT hfb hcap] at hok
            exact absurd (congrArg Prod.snd hok) (by simp)
          · have hlt := Nat.lt_of_not_le hcap
            refine ⟨topEnsure s.inner, e, b, ?_, hfT, hfb, hlt, ?_⟩
            · by_cases hemp : s.inner.isEmpty
              · exact Or.inl ⟨List.isEmpty_iff.mp hemp, by simp [topEnsure, hemp]⟩
              · exact Or.inr ⟨by simpa [List.isEmpty_iff] using hemp,
                  by simp [topEnsure, hemp]⟩
            · cases item with
              | hash hh =>
                rw [insertCore_ok s.index _ (.hash hh) e b hfT hfb hlt] at hok
                simp only at hok
                exact (congrArg Prod.fst hok).symm
              | keep c =>
                rw [insertCore_ok s.index _ (.keep c) e b hfT hfb hlt] at hok
                simp only at hok
                cases hg : mapGet s.index c with
                | none =>
                  rw [hg] at hok
                  simp only at hok
                  rw [Prod.mk.injEq] at hok
                  obtain ⟨hB, -⟩ := hok
                  exact ⟨by rw [← hB], Or.inl ⟨hg, by rw [← hB]⟩⟩
                | some pOld =>
                  rw [hg] at hok
                  simp only at hok
                  rw [Prod.mk.injEq] at hok
                  obtain ⟨hB, -⟩ := hok
                  exact ⟨by rw [← hB], Or.inr ⟨pOld, hg, by rw [← hB]⟩⟩

theorem insert_ok_insertCR (s B : Eternity) (w : Witness) (c : Commitment)
    (hok : s.insert w c = (B, none)) :
    s.insertCR (match w with | .keep => .keep c | .forget => .hash (.of c)) = (B, none) := by
  have main : ∀ item : Insert Commitment,
      (let r := s.insertCR item
        if r.2.isSome then (r.1, some c) else ((r.1, none) : Eternity × Option Commitment)) =
          (B, none) →
      s.insertCR item = (B, none) := by
    intro item hx
    by_cases hp : (s.insertCR item).2.isSome
    · simp only [hp, if_true] at hx
      exact absurd (congrArg Prod.snd hx) (by simp)
    · simp only [hp, Bool.false_eq_true, if_false] at hx
      have h2 : (s.insertCR item).2 = none := by
        cases ho : (s.insertCR item).2 with
        | none => rfl
        | some v => rw [ho] at hp; simp at hp
      have h1 : (s.insertCR item).1 = B := congrArg Prod.fst hx
      calc s.insertCR item = ((s.insertCR item).1, (s.insertCR item).2) := rfl
        _ = (B, none) := by rw [h1, h2]
  cases w
  · exact main (.keep c) hok
  · exact main (.hash (.of c)) hok

/-! ## Leaf-path lemmas -/

theorem getElem?_append_left' {α : Type _} (l l' : List α) (i : Nat)
    (h : i < l.length) : (l ++ l')[i]? = l[i]? := by
  rw [List.getElem?_append]
  simp [h]

theorem mem_of_mapGet (m : IndexMap) (c : Commitment) (p : Pos)
    (h : mapGet m c = some p) : (c, p) ∈ m := by
  unfold mapGet at h
  cases hf : m.find? (fun e => e.1 == c) with
  | none => rw [hf] at h; cases h
  | some x =>
    rw [hf] at h
    have hx := List.mem_of_find?_eq_some hf
    have hpred := List.find?_some hf
    obtain ⟨a, v⟩ := x
    have ha : a = c := by simpa using hpred
    have hv : v = p := by simpa using h
    subst ha
    subst hv
    exact hx

theorem epochEnsure_of_ne_nil (e : EpochTier) (h : e ≠ []) : epochEnsure e = e := by
  unfold epochEnsure
  rw [if_neg]
  simp [List.isEmpty_iff, h]

theorem focusOf_some_ne_nil {α : Type _} (l : List α) (x : α)
    (h : focusOf l = some x) : l ≠ [] := by
  intro hl
  subst hl
  simp [focusOf] at h

theorem tierLeafAt_nil (p : Pos) : tierLeafAt [] p = none := rfl

theorem leafAt_unfold (t : TopTier) (p : Pos) {x : Insert Commitment}
    (h : tierLeafAt t p = some x) :
    ∃ e b, t[p.epoch]? = some (.keep e) ∧ e[p.block]? = some (.keep b) ∧
      b[p.item]? = some x := by
  unfold tierLeafAt at h
  split at h
  case h_2 => cases h
  rename_i e hE
  split at h
  case h_2 => cases h
  rename_i b hB
  exact ⟨e, b, hE, hB, h⟩

theorem tierLeafAt_tset_preserve (T : TopTier) (e : EpochTier) (b : BlockTier)
    (item : Insert Commitment) (q : Pos) (x : Insert Commitment)
    (hfT : focusOf T = some (.keep e)) (hfb : focusOf (epochEnsure e) = some (.keep b))
    (hq : tierLeafAt T q = some x) :
    tierLeafAt (tset T e item b) q = some x := by
  obtain ⟨e₀, b₀, hE, hB, hI⟩ := leafAt_unfold T q hq
  unfold tset tierLeafAt
  by_cases hqe : q.epoch = T.length - 1
  · have hEfoc : T[q.epoch]? = some (.keep e) := by rw [hqe]; exact hfT
    have he₀ : e₀ = e := by
      rw [hE] at hEfoc
      exact (Insert.keep.inj (Option.some.inj hEfoc))
    rw [he₀] at hB
    have hene : e ≠ [] := by
      intro hnil
      rw [hnil] at hB
      simp at hB
    rw [epochEnsure_of_ne_nil e hene] at hfb
    have hTlt : q.epoch < T.length := by
      by_contra hge
      rw [List.getElem?_eq_none (Nat.le_of_not_lt hge)] at hE
      cases hE
    simp only [epochEnsure_of_ne_nil e hene, ← hqe, List.getElem?_set_self hTlt]
    by_cases hqb : q.block = e.length - 1
    · have hBfoc : e[q.block]? = some (.keep b) := by rw [hqb]; exact hfb
      have hb₀ : b₀ = b := by
        rw [hB] at hBfoc
        exact (Insert.keep.inj (Option.some.inj hBfoc))
      rw [hb₀] at hI
      have hblt : q.block < e.length := by
        by_contra hge
        rw [List.getElem?_eq_none (Nat.le_of_not_lt hge)] at hB
        cases hB
      simp only [← hqb, List.getElem?_set_self hblt]
      have hilt : q.item < b.length := by
        by_contra hge
        rw [List.getElem?_eq_none (Nat.le_of_not_lt hge)] at hI
        cases hI
      rw [getElem?_append_left' _ _ _ hilt]
      exact hI
    · simp only [List.getElem?_set_ne (fun hh => hqb hh.symm), hB, hI]
  · simp only [List.getElem?_set_ne (fun hh => hqe hh.symm), hE, hB, hI]

theorem tierLeafAt_newPos_none (T : TopTier) (e : EpochTier) (b : BlockTier)
    (hfT : focusOf T = some (.keep e)) (hfb : focusOf (epochEnsure e) = some (.keep b)) :
    tierLeafAt T (newPos T e b) = none := by
  unfold tierLeafAt newPos
  simp only
  simp only [show T[T.length - 1]? = some (.keep e) from hfT]
  by_cases hene : e = []
  · subst hene
    simp
  · rw [epochEnsure_of_ne_nil e hene] at hfb ⊢
    simp only [show e[e.length - 1]? = some (.keep b) from hfb]
    simp

theorem tierLeafAt_tset_newPos (T : TopTier) (e : EpochTier) (b : BlockTier)
    (item : Insert Commitment)
    (hfT : focusOf T = some (.keep e)) (_hfb : focusOf (epochEnsure e) = some (.keep b)) :
    tierLeafAt (tset T e item b) (newPos T e b) = some item := by
  unfold tierLeafAt tset newPos
  simp only
  have hTlt : T.length - 1 < T.length := by
    have := focusOf_some_ne_nil T _ hfT
    cases T with
    | nil => exact absurd rfl this
    | cons a t => simp
  simp only [List.getElem?_set_self hTlt]
  have helt : (epochEnsure e).length - 1 < (epochEnsure e).length := by
    have := epochEnsure_ne_nil e
    cases he : epochEnsure e with
    | nil => exact absurd he this
    | cons a t => simp
  simp only [List.getElem?_set_self helt]
  simp

theorem tierForget_leafAt_self (t : TopTier) (p : Pos) (c : Commitment)
    (h : tierLeafAt t p = some (.keep c)) :
    tierLeafAt (tierForget t p).1 p = some (.hash (.of c)) := by
  obtain ⟨e, b, hE, hB, hI⟩ := leafAt_unfold t p h
  have hplt : p.epoch < t.length := by
    by_contra hge
    rw [List.getElem?_eq_none (Nat.le_of_not_lt hge)] at hE
    cases hE
  have hblt : p.block < e.length := by
    by_contra hge
    rw [List.getElem?_eq_none (Nat.le_of_not_lt hge)] at hB
    cases hB
  have hilt : p.item < b.length := by
    by_contra hge
    rw [List.getElem?_eq_none (Nat.le_of_not_lt hge)] at hI
    cases hI
  unfold tierForget
  simp only [hE, hB, hI]
  unfold tierLeafAt
  simp only [List.getElem?_set_self hplt, List.getElem?_set_self hblt,
    List.getElem?_set_self hilt]

theorem tierForget_leafAt_ne (t : TopTier) (p q : Pos) (hne : q ≠ p) :
    tierLeafAt (tierForget t p).1 q = tierLeafAt t q := by
  unfold tierForget
  split
  case h_2 => rfl
  rename_i e hE
  split
  case h_2 => rfl
  rename_i b hB
  split
  case h_2 => rfl
  rename_i c hI
  have hplt : p.epoch < t.length := by
    by_contra hge
    rw [List.getElem?_eq_none (Nat.le_of_not_lt hge)] at hE
    cases hE
  have hblt : p.block < e.length := by
    by_contra hge
    rw [List.getElem?_eq_none (Nat.le_of_not_lt hge)] at hB
    cases hB
  simp only
  unfold tierLeafAt
  by_cases hqe : q.epoch = p.epoch
  · simp only [hqe, List.getElem?_set_self hplt, hE]
    by_cases hqb : q.block = p.block
    · simp only [hqb, List.getElem?_set_self hblt, hB]
      have hqi : q.item ≠ p.item := by
        intro hqi
        exact hne (by cases q; cases p; simp_all)
      simp only [List.getElem?_set_ne (fun hh => hqi hh.symm)]
    · simp only [List.getElem?_set_ne (fun hh => hqb hh.symm)]
  · simp only [List.getElem?_set_ne (fun hh => hqe hh.symm)]

theorem tierWitness_none_of_hash (t : TopTier) (p : Pos) (h : Hash)
    (hl : tierLeafAt t p = some (.hash h)) : tierWitness t p = none := by
  obtain ⟨e, b, hE, hB, hI⟩ := leafAt_unfold t p hl
  unfold tierWitness
  simp only [hE, hB, hI]

theorem witness_of_leafAt (s : Eternity) (c : Commitment) (p : Pos)
    (hg : mapGet s.index c = some p) (hl : s.leafAt p = some (.keep c)) :
    ∃ pf, s.witness c = some pf ∧ pf.position = p := by
  obtain ⟨e, b, hE, hB, hI⟩ := leafAt_unfold s.inner p hl
  have hw : tierWitness s.inner p =
      some (⟨(s.inner.map epochSlotHash).eraseIdx p.epoch,
        (e.map blockSlotHash).eraseIdx p.block,
        (b.map itemHash).eraseIdx p.item⟩, .of c) := by
    unfold tierWitness
    simp only [hE, hB, hI]
  refine ⟨⟨p, ⟨(s.inner.map epochSlotHash).eraseIdx p.epoch,
    (e.map blockSlotHash).eraseIdx p.block,
    (b.map itemHash).eraseIdx p.item⟩, c⟩, ?_, rfl⟩
  unfold Eternity.witness
  simp only [hg, hw]

/-! ## Growth-order lemmas -/

theorem focusOf_eq_getElem {α : Type _} (l : List α) : focusOf l = l[l.length - 1]? := rfl

theorem insLeB_refl (x : Insert BlockTier) : insLeB x x := by
  cases x <;> simp [insLeB]

theorem insLeB_trans {x y z : Insert BlockTier} (h1 : insLeB x y) (h2 : insLeB y z) :
    insLeB x z := by
  cases x <;> cases y <;> cases z <;> simp_all [insLeB]
  omega

theorem EpochLe_refl (e : EpochTier) : EpochLe e e :=
  ⟨le_refl _, fun _ x h => ⟨x, h, insLeB_refl x⟩⟩

theorem EpochLe_trans {a b c : EpochTier} (h1 : EpochLe a b) (h2 : EpochLe b c) :
    EpochLe a c :=
  ⟨le_trans h1.1 h2.1, fun i x hx =>
    let ⟨y, hy, hxy⟩ := h1.2 i x hx
    let ⟨z, hz, hyz⟩ := h2.2 i y hy
    ⟨z, hz, insLeB_trans hxy hyz⟩⟩

theorem insLeE_refl (x : Insert EpochTier) : insLeE x x := by
  cases x with
  | keep e => exact EpochLe_refl e
  | hash h => trivial

theorem insLeE_trans {x y z : Insert EpochTier} (h1 : insLeE x y) (h2 : insLeE y z) :
    insLeE x z := by
  cases x <;> cases y <;> cases z <;> try trivial
  exact EpochLe_trans h1 h2

theorem TopLe_refl (t : TopTier) : TopLe t t :=
  ⟨le_refl _, fun _ x h => ⟨x, h, insLeE_refl x⟩⟩

theorem TopLe_trans {a b c : TopTier} (h1 : TopLe a b) (h2 : TopLe b c) : TopLe a c :=
  ⟨le_trans h1.1 h2.1, fun i x hx =>
    let ⟨y, hy, hxy⟩ := h1.2 i x hx
    let ⟨z, hz, hyz⟩ := h2.2 i y hy
    ⟨z, hz, insLeE_trans hxy hyz⟩⟩

theorem listRel_append {α : Type _} (R : α → α → Prop) (hrefl : ∀ v, R v v)
    (l l' : List α) :
    l.length ≤ (l ++ l').length ∧
    ∀ (i : Nat) (x : α), l[i]? = some x → ∃ y, (l ++ l')[i]? = some y ∧ R x y := by
  constructor
  · simp
  · intro i x hx
    have hi : i < l.length := by
      by_contra hge
      rw [List.getElem?_eq_none (Nat.le_of_not_lt hge)] at hx
      cases hx
    exact ⟨x, by rw [getElem?_append_left' _ _ _ hi]; exact hx, hrefl x⟩

theorem listRel_set {α : Type _} (R : α → α → Prop) (hrefl : ∀ v, R v v)
    (l : List α) (i : Nat) (x y : α) (hget : l[i]? = some x) (hxy : R x y) :
    l.length ≤ (l.set i y).length ∧
    ∀ (j : Nat) (z : α), l[j]? = some z → ∃ w, (l.set i y)[j]? = some w ∧ R z w := by
  constructor
  · simp
  · intro j z hz
    by_cases hij : i = j
    · subst hij
      have hlt : i < l.length := by
        by_contra hge
        rw [List.getElem?_eq_none (Nat.le_of_not_lt hge)] at hget
        cases hget
      have hxz : z = x := by
        rw [hget] at hz
        exact (Option.some.inj hz).symm
      subst hxz
      exact ⟨y, List.getElem?_set_self hlt, hxy⟩
    · exact ⟨z, by rw [List.getElem?_set_ne hij]; exact hz, hrefl z⟩

theorem TopLe_append (t l : TopTier) : TopLe t (t ++ l) :=
  listRel_append insLeE insLeE_refl t l

theorem TopLe_set (t : TopTier) (i : Nat) (x y : Insert EpochTier)
    (h : t[i]? = some x) (hxy : insLeE x y) : TopLe t (t.set i y) :=
  listRel_set insLeE insLeE_refl t i x y h hxy

theorem EpochLe_append (e l : EpochTier) : EpochLe e (e ++ l) :=
  listRel_append insLeB insLeB_refl e l

theorem EpochLe_set (e : EpochTier) (i : Nat) (x y : Insert BlockTier)
    (h : e[i]? = some x) (hxy : insLeB x y) : EpochLe e (e.set i y) :=
  listRel_set insLeB insLeB_refl e i x y h hxy

theorem EpochLe_epochEnsure (e : EpochTier) : EpochLe e (epochEnsure e) := by
  unfold epochEnsure
  by_cases he : e.isEmpty
  · rw [if_pos he]; exact EpochLe_append e _
  · rw [if_neg he]; exact EpochLe_refl e

theorem tierForget_topLe (t : TopTier) (p : Pos) : TopLe t (tierForget t p).1 := by
  unfold tierForget
  split
  case h_2 => exact TopLe_refl t
  rename_i e hE
  split
  case h_2 => exact TopLe_refl t
  rename_i b hB
  split
  case h_2 => exact TopLe_refl t
  rename_i c hI
  simp only
  apply TopLe_set t p.epoch (.keep e) _ hE
  show EpochLe e _
  exact EpochLe_set e p.block (.keep b) _ hB (by simp [insLeB])

theorem tset_topLe (T : TopTier) (e : EpochTier) (b : BlockTier) (item : Insert Commitment)
    (hfT : focusOf T = some (.keep e))
    (hfb : focusOf (epochEnsure e) = some (.keep b)) :
    TopLe T (tset T e item b) := by
  unfold tset
  apply TopLe_set T (T.length - 1) (.keep e) _ (by rw [← focusOf_eq_getElem]; exact hfT)
  show EpochLe e _
  apply EpochLe_trans (EpochLe_epochEnsure e)
  exact EpochLe_set _ _ (.keep b) _ (by rw [← focusOf_eq_getElem]; exact hfb)
    (by simp [insLeB])

theorem insertCore_topLe (idx : IndexMap) (T : TopTier) (item : Insert Commitment) :
    TopLe T ((insertCore idx T item).1).inner := by
  rcases hfT : focusOf T with _ | et
  · rw [insertCore_focus_none _ _ _ hfT]; exact TopLe_refl T
  · cases et with
    | hash hh => rw [insertCore_focus_hash _ _ _ _ hfT]; exact TopLe_refl T
    | keep e =>
      rcases hfb : focusOf (epochEnsure e) with _ | bt
      · obtain ⟨x, hx⟩ := focusOf_of_ne_nil _ (epochEnsure_ne_nil e)
        rw [hx] at hfb
        cases hfb
      · cases bt with
        | hash hh =>
          rw [insertCore_block_hash _ _ _ _ _ hfT hfb]; exact TopLe_refl T
        | keep b =>
          by_cases hcap : cap ≤ b.length
          · rw [insertCore_block_full _ _ _ _ _ hfT hfb hcap]; exact TopLe_refl T
          · rw [insertCore_ok _ _ item e b hfT hfb (Nat.lt_of_not_le hcap)]
            cases item with
            | hash hh =>
              simp only
              exact tset_topLe T e b _ hfT hfb
            | keep c =>
              simp only
              cases hg : mapGet idx c with
              | none =>
                simp only
                exact tset_topLe T e b _ hfT hfb
              | some pOld =>
                simp only
                exact TopLe_trans (tset_topLe T e b _ hfT hfb) (tierForget_topLe _ pOld)

theorem foldl_topLe {β : Type _} (f : Eternity → β → Eternity)
    (hf : ∀ st x, TopLe st.inner ((f st x).inner)) (entries : List β) :
    ∀ (init : Eternity) (t₀ : TopTier), TopLe t₀ init.inner →
      TopLe t₀ ((entries.foldl f init).inner) := by
  induction entries with
  | nil => intro init t₀ h₀; exact h₀
  | cons a t ih =>
    intro init t₀ h₀
    exact ih (f init a) t₀ (TopLe_trans h₀ (hf init a))

theorem insertEpochOrRoot_topLe (s : Eternity) (ep : Insert Epoch) :
    TopLe s.inner ((s.insertEpochOrRoot ep).1).inner := by
  unfold Eternity.insertEpochOrRoot
  by_cases hcap : cap ≤ s.inner.length
  · rw [if_pos hcap]; exact TopLe_refl _
  · rw [if_neg hcap]
    rcases ep with e | hh
    · simp only
      refine foldl_topLe _ ?_ e.index _ _ (TopLe_append s.inner [.keep e.inner])
      intro st entry
      rcases hmi : (mapInsert st.index entry.1
        ⟨s.inner.length, entry.2.1, entry.2.2⟩).2 with _ | p
      · simp only [hmi]; exact TopLe_refl _
      · simp only [hmi]; exact tierForget_topLe _ p
    · exact TopLe_append s.inner [.hash hh]

theorem insertEpoch_topLe (s : Eternity) (e : Epoch) :
    TopLe s.inner ((s.insertEpoch e).1).inner := by
  unfold Eternity.insertEpoch
  by_cases hp : (s.insertEpochOrRoot (.keep e)).2.isSome <;>
    simp only [hp, if_true, Bool.false_eq_true, if_false] <;>
    exact insertEpochOrRoot_topLe s (.keep e)

theorem insertEpochRoot_topLe (s : Eternity) (h : Hash) :
    TopLe s.inner ((s.insertEpochRoot h).1).inner := by
  unfold Eternity.insertEpochRoot
  by_cases hp : (s.insertEpochOrRoot (.hash h)).2.isSome <;>
    simp only [hp, if_true, Bool.false_eq_true, if_false] <;>
    exact insertEpochOrRoot_topLe s (.hash h)

theorem pre_topLe (s : Eternity) :
    TopLe s.inner (((if s.inner.isEmpty then s.insertEpoch Epoch.new
      else (s, none)) : Eternity × Option InsertEpochError).1).inner := by
  by_cases hemp : s.inner.isEmpty
  · rw [if_pos hemp]; exact insertEpoch_topLe s Epoch.new
  · rw [if_neg hemp]; exact TopLe_refl _

theorem insertCR_topLe (s : Eternity) (item : Insert Commitment) :
    TopLe s.inner ((s.insertCR item).1).inner := by
  unfold Eternity.insertCR
  by_cases hp : ((if s.inner.isEmpty then s.insertEpoch Epoch.new
      else (s, none)) : Eternity × Option InsertEpochError).2.isSome
  · simp only [hp, if_true]
    exact pre_topLe s
  · simp only [hp, Bool.false_eq_true, if_false]
    exact TopLe_trans (pre_topLe s) (insertCore_topLe _ _ item)

theorem insert_topLe (s : Eternity) (w : Witness) (c : Commitment) :
    TopLe s.inner ((s.insert w c).1).inner := by
  have key : ∀ item : Insert Commitment,
      TopLe s.inner (((let r := s.insertCR item
        if r.2.isSome then (r.1, some c) else ((r.1, none) : Eternity × Option Commitment)).1).inner) := by
    intro item
    by_cases hp : (s.insertCR item).2.isSome <;>
      simp only [hp, if_true, Bool.false_eq_true, if_false] <;>
      exact insertCR_topLe s item
  cases w
  · exact key (.keep c)
  · exact key (.hash (.of c))

theorem insertBlockRoot_topLe (s : Eternity) (h : Hash) :
    TopLe s.inner ((s.insertBlockRoot h).1).inner := by
  unfold Eternity.insertBlockRoot
  by_cases hp : ((if s.inner.isEmpty then s.insertEpoch Epoch.new
      else (s, none)) : Eternity × Option InsertEpochError).2.isSome
  · simp only [hp, if_true]
    exact pre_topLe s
  · simp only [hp, Bool.false_eq_true, if_false]
    rcases hf : focusOf ((if s.inner.isEmpty then s.insertEpoch Epoch.new
        else (s, none)) : Eternity × Option InsertEpochError).1.inner with _ | e | hh
    · exact pre_topLe s
    · by_cases hcap : cap ≤ e.length
      · simp only [hcap, if_true]
        exact pre_topLe s
      · simp only [hcap, if_false]
        refine TopLe_trans (pre_topLe s) ?_
        apply TopLe_set _ _ (.keep e) _ (by rw [← focusOf_eq_getElem]; exact hf)
        show EpochLe e _
        exact EpochLe_append e _
    · exact pre_topLe s

theorem insertBlock_topLe (s : Eternity) (b : Block) :
    TopLe s.inner ((s.insertBlock b).1).inner := by
  unfold Eternity.insertBlock
  by_cases hp : ((if s.inner.isEmpty then s.insertEpoch Epoch.new
      else (s, none)) : Eternity × Option InsertEpochError).2.isSome
  · simp only [hp, if_true]
    exact pre_topLe s
  · simp only [hp, Bool.false_eq_true, if_false]
    rcases hf : focusOf ((if s.inner.isEmpty then s.insertEpoch Epoch.new
        else (s, none)) : Eternity × Option InsertEpochError).1.inner with _ | e | hh
    · exact pre_topLe s
    · by_cases hcap : cap ≤ e.length
      · simp only [hcap, if_true]
        exact pre_topLe s
      · simp only [hcap, if_false]
        refine TopLe_trans (pre_topLe s) ?_
        refine foldl_topLe _ ?_ b.index _ _ ?_
        · intro st entry
          rcases hmi : (mapInsert st.index entry.1
            ⟨((if s.inner.isEmpty then s.insertEpoch Epoch.new
              else (s, none)) : Eternity × Option InsertEpochError).1.inner.length - 1,
              e.length, entry.2⟩).2 with _ | p
          · simp only [hmi]; exact TopLe_refl _
          · simp only [hmi]; exact tierForget_topLe _ p
        · apply TopLe_set _ _ (.keep e) _ (by rw [← focusOf_eq_getElem]; exact hf)
          show EpochLe e _
          exact EpochLe_append e _
    · exact pre_topLe s

theorem forget_topLe (s : Eternity) (c : Commitment) :
    TopLe s.inner ((s.forget c).1).inner := by
  unfold Eternity.forget
  cases h : mapGet s.index c with
  | none => exact TopLe_refl _
  | some p => exact tierForget_topLe s.inner p

theorem step_topLe {s t : Eternity} (h : Step s t) : TopLe s.inner t.inner := by
  cases h with
  | insert w c => exact insert_topLe _ w c
  | insertBlock b => exact insertBlock_topLe _ b
  | insertBlockRoot h => exact insertBlockRoot_topLe _ h
  | insertEpoch e => exact insertEpoch_topLe _ e
  | insertEpochRoot h => exact insertEpochRoot_topLe _ h
  | forget c => exact forget_topLe _ c

theorem reach_topLe {s t : Eternity} (h : Reach s t) : TopLe s.inner t.inner := by
  induction h with
  | refl => exact TopLe_refl _
  | tail _ hstep ih => exact TopLe_trans ih (step_topLe hstep)

/-! ## A root can never recur once a commitment has been inserted -/

theorem focusOf_set_of_lt {α : Type _} (l : List α) (i : Nat) (x : α)
    (h : i < l.length) :
    focusOf (l.set i x) = if i = l.length - 1 then some x else focusOf l := by
  unfold focusOf
  rw [List.length_set]
  by_cases hi : i = l.length - 1
  · subst hi
    rw [if_pos rfl]
    exact List.getElem?_set_self (by omega)
  · rw [if_neg hi, List.getElem?_set_ne hi]

/-- Forgetting a position changes neither the slot count of any tier on the
path nor the focus term that `len` reads. -/
theorem tierForget_len (t : TopTier) (p : Pos) :
    ((tierForget t p).1).length = t.length ∧
      lenFocusTerm (focusOf (tierForget t p).1) = lenFocusTerm (focusOf t) := by
  unfold tierForget
  split
  case h_2 => exact ⟨rfl, rfl⟩
  rename_i e hE
  split
  case h_2 => exact ⟨rfl, rfl⟩
  rename_i b hB
  split
  case h_2 => exact ⟨rfl, rfl⟩
  rename_i c hI
  have hpe : p.epoch < t.length := by
    by_contra hge
    rw [List.getElem?_eq_none (Nat.le_of_not_lt hge)] at hE
    cases hE
  have hpb : p.block < e.length := by
    by_contra hge
    rw [List.getElem?_eq_none (Nat.le_of_not_lt hge)] at hB
    cases hB
  refine ⟨List.length_set .., ?_⟩
  show lenFocusTerm (focusOf (t.set p.epoch (.keep (e.set p.block
    (.keep (b.set p.item (.hash (.of c)))))))) = lenFocusTerm (focusOf t)
  rw [focusOf_set_of_lt _ _ _ hpe]
  by_cases hfe : p.epoch = t.length - 1
  · rw [if_pos hfe]
    have hft : focusOf t = some (.keep e) := by
      unfold focusOf; rw [← hfe]; exact hE
    rw [hft]
    simp only [lenFocusTerm]
    rw [focusOf_set_of_lt _ _ _ hpb]
    by_cases hfb : p.block = e.length - 1
    · rw [if_pos hfb]
      have hfe2 : focusOf e = some (.keep b) := by
        unfold focusOf; rw [← hfb]; exact hB
      rw [hfe2]
      simp [List.length_set]
    · rw [if_neg hfb]
  · rw [if_neg hfe]

theorem tierForget_slot_shape (t : TopTier) (p : Pos) (i : Nat) (e₁ : EpochTier)
    (h : t[i]? = some (.keep e₁)) :
    ∃ e₂, ((tierForget t p).1)[i]? = some (.keep e₂) ∧ e₂.length = e₁.length ∧
      ∀ (k : Nat) (b₁ : BlockTier), e₁[k]? = some (.keep b₁) →
        ∃ b₂, e₂[k]? = some (.keep b₂) ∧ b₂.length = b₁.length := by
  unfold tierForget
  split
  case h_2 => exact ⟨e₁, h, rfl, fun k b₁ hk => ⟨b₁, hk, rfl⟩⟩
  rename_i e hE
  split
  case h_2 => exact ⟨e₁, h, rfl, fun k b₁ hk => ⟨b₁, hk, rfl⟩⟩
  rename_i b hB
  split
  case h_2 => exact ⟨e₁, h, rfl, fun k b₁ hk => ⟨b₁, hk, rfl⟩⟩
  rename_i c hI
  simp only
  by_cases hip : i = p.epoch
  · subst hip
    have he : e₁ = e := by
      rw [h] at hE
      exact Insert.keep.inj (Option.some.inj hE)
    subst he
    have hlt : p.epoch < t.length := by
      by_contra hge
      rw [List.getElem?_eq_none (Nat.le_of_not_lt hge)] at h
      cases h
    refine ⟨e₁.set p.block (.keep (b.set p.item (.hash (.of c)))),
      List.getElem?_set_self hlt, by simp, ?_⟩
    intro k b₁ hk
    by_cases hkp : k = p.block
    · subst hkp
      have hb : b₁ = b := by
        rw [hk] at hB
        exact Insert.keep.inj (Option.some.inj hB)
      subst hb
      have hklt : p.block < e₁.length := by
        by_contra hge
        rw [List.getElem?_eq_none (Nat.le_of_not_lt hge)] at hk
        cases hk
      exact ⟨b₁.set p.item (.hash (.of c)), List.getElem?_set_self hklt, by simp⟩
    · exact ⟨b₁, by rw [List.getElem?_set_ne (fun hh => hkp hh.symm)]; exact hk, rfl⟩
  · exact ⟨e₁, by rw [List.getElem?_set_ne (fun hh => hip hh.symm)]; exact h, rfl,
      fun k b₁ hk => ⟨b₁, hk, rfl⟩⟩

theorem tset_facts (T : TopTier) (e : EpochTier) (b : BlockTier) (item : Insert Commitment)
    (hfT : focusOf T = some (.keep e))
    (_hfb : focusOf (epochEnsure e) = some (.keep b)) :
    (tset T e item b).length = T.length ∧
    (tset T e item b)[T.length - 1]? =
      some (.keep ((epochEnsure e).set ((epochEnsure e).length - 1) (.keep (b ++ [item])))) ∧
    ((epochEnsure e).set ((epochEnsure e).length - 1) (.keep (b ++ [item]))).length =
      (epochEnsure e).length ∧
    ((epochEnsure e).set ((epochEnsure e).length - 1)
      (.keep (b ++ [item])))[(epochEnsure e).length - 1]? = some (.keep (b ++ [item])) ∧
    (b ++ [item]).length = b.length + 1 := by
  have hTlt : T.length - 1 < T.length := by
    have := focusOf_some_ne_nil T _ hfT
    cases T with
    | nil => exact absurd rfl this
    | cons a t => simp
  have helt : (epochEnsure e).length - 1 < (epochEnsure e).length := by
    have := epochEnsure_ne_nil e
    cases he : epochEnsure e with
    | nil => exact absurd he this
    | cons a t => simp
  exact ⟨by simp [tset], List.getElem?_set_self hTlt, by simp,
    List.getElem?_set_self helt, by simp⟩

/-- Structural facts about the tree after a successful `insert`: the top
slot count is unchanged (or created), the focused epoch slot is still
materialized with an unchanged block count, and its focused block grew by
exactly one item. -/
theorem insert_ok_B_facts (X B : Eternity) (w : Witness) (c : Commitment)
    (hok : X.insert w c = (B, none)) :
    ∃ T e b e₂ b₂,
      ((X.inner = [] ∧ T = [.keep []]) ∨ (X.inner ≠ [] ∧ T = X.inner)) ∧
      focusOf T = some (.keep e) ∧
      focusOf (epochEnsure e) = some (.keep b) ∧
      B.inner.length = T.length ∧
      B.inner[T.length - 1]? = some (.keep e₂) ∧
      e₂.length = (epochEnsure e).length ∧
      e₂[(epochEnsure e).length - 1]? = some (.keep b₂) ∧
      b₂.length = b.length + 1 := by
  have hcr := insert_ok_insertCR X B w c hok
  obtain ⟨T, e, b, hT, hfT, hfb, hbl, hmatch⟩ := insertCR_ok_shape X _ B hcr
  cases w with
  | forget =>
    simp only at hmatch
    obtain ⟨h1, h2, h3, h4, h5⟩ := tset_facts T e b (.hash (.of c)) hfT hfb
    subst hmatch
    exact ⟨T, e, b, _, _, hT, hfT, hfb, h1, h2, h3, h4, h5⟩
  | keep =>
    simp only at hmatch
    obtain ⟨hBidx, hrest⟩ := hmatch
    obtain ⟨h1, h2, h3, h4, h5⟩ := tset_facts T e b (.keep c) hfT hfb
    rcases hrest with ⟨hnone, hBinner⟩ | ⟨pOld, hsome, hBinner⟩
    · exact ⟨T, e, b, _, _, hT, hfT, hfb, by rw [hBinner]; exact h1,
        by rw [hBinner]; exact h2, h3, h4, h5⟩
    · obtain ⟨e₂, he₂get, he₂len, he₂inner⟩ :=
        tierForget_slot_shape (tset T e (.keep c) b) pOld (T.length - 1) _ h2
      obtain ⟨b₂, hb₂get, hb₂len⟩ := he₂inner ((epochEnsure e).length - 1) _ h4
      refine ⟨T, e, b, e₂, b₂, hT, hfT, hfb, ?_, by rw [hBinner]; exact he₂get,
        by rw [he₂len, h3], hb₂get, by rw [hb₂len, h5]⟩
      rw [hBinner, (tierForget_len _ _).1, h1]

/-- **Core irreversibility.** If a commitment is successfully inserted at
state `X`, no later state's root can equal any root taken at or before `X`:
the focused block strictly grew, slot counts never shrink, kinds never
change, and the free hash is injective. -/
theorem insert_root_forever (A X B C : Eternity) (w : Witness) (c : Commitment)
    (hAX : Reach A X) (hins : X.insert w c = (B, none)) (hBC : Reach B C) :
    A.root ≠ C.root := by
  intro hroot
  have hmap : A.inner.map epochSlotHash = C.inner.map epochSlotHash := Hash.node_inj hroot
  have hlenAC : A.inner.length = C.inner.length := by
    have := congrArg List.length hmap
    simpa using this
  have hAX' := reach_topLe hAX
  have hBC' := reach_topLe hBC
  obtain ⟨T, e, b, e₂, b₂, hT, hfT, hfb, hBlen, hBslot, he₂len, he₂slot, hb₂len⟩ :=
    insert_ok_B_facts X B w c hins
  rcases hT with ⟨hXnil, hTval⟩ | ⟨hXne, hTval⟩
  · subst hTval
    have h1 : A.inner.length ≤ X.inner.length := hAX'.1
    have h2 : B.inner.length ≤ C.inner.length := hBC'.1
    rw [hXnil] at h1
    rw [hBlen] at h2
    simp only [List.length_nil, List.length_cons] at h1 h2
    omega
  · subst hTval
    have hn1 : A.inner.length ≤ X.inner.length := hAX'.1
    have hn2 : B.inner.length ≤ C.inner.length := hBC'.1
    rw [hBlen] at hn2
    have hnpos : 0 < X.inner.length := List.length_pos.mpr hXne
    have hallA : A.inner.length = X.inner.length := by omega
    have hjA : X.inner.length - 1 < A.inner.length := by omega
    obtain ⟨xa, hxa⟩ : ∃ xa, A.inner[X.inner.length - 1]? = some xa :=
      ⟨_, List.getElem?_eq_getElem hjA⟩
    obtain ⟨yX, hyX, hle1⟩ := hAX'.2 _ xa hxa
    rw [focusOf_eq_getElem] at hfT
    rw [hfT] at hyX
    have hyXv : yX = .keep e := (Option.some.inj hyX).symm
    subst hyXv
    cases xa with
    | hash hh => exact absurd hle1 (by simp [insLeE])
    | keep ea =>
      have hEa : EpochLe ea e := hle1
      obtain ⟨yC, hyC, hle2⟩ := hBC'.2 _ (.keep e₂) hBslot
      cases yC with
      | hash hh => exact absurd hle2 (by simp [insLeE])
      | keep ec =>
        have hEc : EpochLe e₂ ec := hle2
        have hmapj : (A.inner.map epochSlotHash)[X.inner.length - 1]? =
            (C.inner.map epochSlotHash)[X.inner.length - 1]? := by rw [hmap]
        rw [List.getElem?_map, List.getElem?_map, hxa, hyC] at hmapj
        simp only [Option.map_some', Option.some.injEq] at hmapj
        have hmapj' : epochHash ea = epochHash ec := hmapj
        have hmapeq : ea.map blockSlotHash = ec.map blockSlotHash := Hash.node_inj hmapj'
        have hlen_ea_ec : ea.length = ec.length := by
          have := congrArg List.length hmapeq
          simpa using this
        by_cases hee : e = []
        · have hm' : (epochEnsure e).length = 1 := by rw [hee]; rfl
          have h3 : ea.length ≤ e.length := hEa.1
          rw [hee] at h3
          simp only [List.length_nil] at h3
          have h4 : e₂.length ≤ ec.length := hEc.1
          rw [he₂len, hm'] at h4
          omega
        · have hE'e : epochEnsure e = e := epochEnsure_of_ne_nil e hee
          have hmpos : 0 < e.length := List.length_pos.mpr hee
          have h3 : ea.length ≤ e.length := hEa.1
          have h4 : e₂.length ≤ ec.length := hEc.1
          rw [he₂len, hE'e] at h4
          have hallm : ea.length = e.length := by omega
          have hkA : e.length - 1 < ea.length := by omega
          obtain ⟨za, hza⟩ : ∃ za, ea[e.length - 1]? = some za :=
            ⟨_, List.getElem?_eq_getElem hkA⟩
          obtain ⟨yb, hyb, hle3⟩ := hEa.2 _ za hza
          rw [focusOf_eq_getElem, hE'e] at hfb
          rw [hfb] at hyb
          have hybv : yb = .keep b := (Option.some.inj hyb).symm
          subst hybv
          cases za with
          | hash hh => exact absurd hle3 (by simp [insLeB])
          | keep ba =>
            have hba : ba.length ≤ b.length := hle3
            have he₂k : e₂[e.length - 1]? = some (.keep b₂) := by
              rw [← hE'e]
              exact he₂slot
            obtain ⟨wc, hwc, hle4⟩ := hEc.2 _ (.keep b₂) he₂k
            cases wc with
            | hash hh => exact absurd hle4 (by simp [insLeB])
            | keep bc =>
              have hbc : b₂.length ≤ bc.length := hle4
              have hmapk : (ea.map blockSlotHash)[e.length - 1]? =
                  (ec.map blockSlotHash)[e.length - 1]? := by rw [hmapeq]
              rw [List.getElem?_map, List.getElem?_map, hza, hwc] at hmapk
              simp only [Option.map_some', Option.some.injEq] at hmapk
              have hmapk' : blockHash ba = blockHash bc := hmapk
              have hmapbk : ba.map itemHash = bc.map itemHash := Hash.node_inj hmapk'
              have hlen_ba_bc : ba.length = bc.length := by
                have := congrArg List.length hmapbk
                simpa using this
              omega

/-- Re-inserting the hash that was erased from a sibling list at the same
index restores the original list. -/
theorem insertAt_eraseIdx (l : List Hash) (i : Nat) (x : Hash)
    (h : l[i]? = some x) : insertAt i x (l.eraseIdx i) = some l := by
  induction l generalizing i with
  | nil => simp at h
  | cons a t ih =>
    cases i with
    | zero =>
      simp at h
      subst h
      rfl
    | succ n =>
      simp at h
      show insertAt (n + 1) x (a :: t.eraseIdx n) = some (a :: t)
      simp [insertAt, ih n h]

/-- A commitment that is indexed and whose leaf is materialized gets a
witness whose recomputed root is exactly the current accumulator root. -/
theorem witness_recompute (s : Eternity) (c : Commitment) (p : Pos)
    (hg : mapGet s.index c = some p) (hl : s.leafAt p = some (.keep c)) :
    ∃ pf, s.witness c = some pf ∧ recomputeRoot pf = some s.root := by
  obtain ⟨e, b, hE, hB, hI⟩ := leafAt_unfold s.inner p hl
  have hw : s.witness c = some ⟨p, ⟨(s.inner.map epochSlotHash).eraseIdx p.epoch,
      (e.map blockSlotHash).eraseIdx p.block, (b.map itemHash).eraseIdx p.item⟩, c⟩ := by
    unfold Eternity.witness tierWitness
    simp only [hg, hE, hB, hI]
  refine ⟨_, hw, ?_⟩
  have h1 : (b.map itemHash)[p.item]? = some (Hash.of c) := by
    rw [List.getElem?_map, hI]
    rfl
  have h2 : (e.map blockSlotHash)[p.block]? = some (Hash.node (b.map itemHash)) := by
    rw [List.getElem?_map, hB]
    rfl
  have h3 : (s.inner.map epochSlotHash)[p.epoch]? =
      some (Hash.node (e.map blockSlotHash)) := by
    rw [List.getElem?_map, hE]
    rfl
  simp only [recomputeRoot, insertAt_eraseIdx _ _ _ h1, insertAt_eraseIdx _ _ _ h2,
    insertAt_eraseIdx _ _ _ h3]
  rfl

/-! ## Claim C1: forget transparency -/

/-- **C1.** For every commitment `c` currently in the accumulator's global
index, `forget(c)` returns `true`, leaves `root()` equal to its value
immediately before the call, and makes a subsequent `witness(c)` return
`None`. -/
theorem forget_transparency (s : Eternity) (c : Commitment) (p : Pos)
    (h : mapGet s.index c = some p) :
    (s.forget c).2 = true ∧ (s.forget c).1.root = s.root ∧
      (s.forget c).1.witness c = none := by
  have hf : s.forget c = (⟨mapRemove s.index c, (tierForget s.inner p).1⟩, true) := by
    unfold Eternity.forget; rw [h]
  rw [hf]
  refine ⟨rfl, ?_, ?_⟩
  · unfold Eternity.root
    exact tierForget_topHash s.inner p
  · unfold Eternity.witness
    simp [mapGet_remove_self]

/-- Witness for C1 at a concrete accumulator holding commitment `0`. -/
theorem forget_transparency_witness :
    mapGet exOne.index 0 = some ⟨0, 0, 0⟩ ∧
      ((exOne.forget 0).2 = true ∧ (exOne.forget 0).1.root = exOne.root ∧
        (exOne.forget 0).1.witness 0 = none) :=
  ⟨by decide, forget_transparency exOne 0 ⟨0, 0, 0⟩ (by decide)⟩

/-! ## Claim C9: forget is total and non-erroring -/

/-- **C9.** `forget` is a total, non-erroring operation: on a commitment not
in the global index it returns `false` and leaves the accumulator completely
unchanged; on an indexed commitment it returns `true`; hence calling it twice
in a row returns `true` then `false`. -/
theorem forget_total (s : Eternity) (c : Commitment) :
    (mapGet s.index c = none → s.forget c = (s, false)) ∧
    ∀ p, mapGet s.index c = some p →
      (s.forget c).2 = true ∧ ((s.forget c).1.forget c).2 = false := by
  constructor
  · intro h; unfold Eternity.forget; rw [h]
  · intro p h
    have hf : s.forget c = (⟨mapRemove s.index c, (tierForget s.inner p).1⟩, true) := by
      unfold Eternity.forget; rw [h]
    rw [hf]
    refine ⟨rfl, ?_⟩
    unfold Eternity.forget
    simp [mapGet_remove_self]

/-- Witness for C9: non-indexed `forget` is a no-op returning `false`, and on
an indexed commitment two consecutive `forget`s return `true` then `false`. -/
theorem forget_total_witness :
    exOne.forget 1 = (exOne, false) ∧
      (exOne.forget 0).2 = true ∧ ((exOne.forget 0).1.forget 0).2 = false :=
  ⟨(forget_total exOne 1).1 (by decide),
    ((forget_total exOne 0).2 ⟨0, 0, 0⟩ (by decide)).1,
    ((forget_total exOne 0).2 ⟨0, 0, 0⟩ (by decide)).2⟩

/-! ## Claim C4: a rejected insert after a summary-only epoch is atomic -/

/-- **C4.** After a successful `insert_epoch_root`, a subsequent
`insert(Keep, c)` fails with the `EpochForgotten` error, hands the commitment
`c` back to the caller, and leaves both `len()` and `root()` unchanged. -/
theorem epoch_root_insert_rejected (s s' : Eternity) (h : Hash) (c : Commitment)
    (hok : s.insertEpochRoot h = (s', none)) :
    s'.insertCR (.keep c) = (s', some .epochForgotten) ∧
      s'.insert .keep c = (s', some c) ∧
      (s'.insert .keep c).1.len = s'.len ∧
      (s'.insert .keep c).1.root = s'.root := by
  by_cases hc : cap ≤ s.inner.length
  · exfalso
    have hbad : s.insertEpochRoot h = (s, some .mk) := by
      unfold Eternity.insertEpochRoot Eternity.insertEpochOrRoot
      rw [if_pos hc]
      rfl
    rw [hbad] at hok
    exact Option.noConfusion (congrArg Prod.snd hok)
  · have hor : s.insertEpochOrRoot (.hash h) = (⟨s.index, s.inner ++ [.hash h]⟩, none) := by
      unfold Eternity.insertEpochOrRoot
      rw [if_neg hc]
      rfl
    have hs' : s' = ⟨s.index, s.inner ++ [.hash h]⟩ := by
      unfold Eternity.insertEpochRoot at hok
      rw [hor] at hok
      exact (congrArg Prod.fst hok).symm
    subst hs'
    have hne : (s.inner ++ [(.hash h : Insert EpochTier)]).isEmpty = false := by
      simp [List.isEmpty_iff]
    have hfoc : focusOf (s.inner ++ [(.hash h : Insert EpochTier)]) = some (.hash h) := by
      unfold focusOf
      simp
    have hcr : Eternity.insertCR ⟨s.index, s.inner ++ [.hash h]⟩ (.keep c) =
        (⟨s.index, s.inner ++ [.hash h]⟩, some .epochForgotten) := by
      rw [insertCR_eq_core]
      have htop : topEnsure (s.inner ++ [(.hash h : Insert EpochTier)]) =
          s.inner ++ [.hash h] := by
        unfold topEnsure; rw [hne]; rfl
      show insertCore s.index (topEnsure (s.inner ++ [.hash h])) (.keep c) = _
      rw [htop]
      exact insertCore_focus_hash _ _ _ _ hfoc
    refine ⟨hcr, ?_, ?_, ?_⟩ <;>
      simp only [Eternity.insert, hcr, Option.isSome_some, if_true]

/-- Witness for C4: insert an epoch root into the empty accumulator, then a
`Keep` insert bounces with `EpochForgotten` and changes nothing. -/
theorem epoch_root_insert_rejected_witness :
    Eternity.empty.insertEpochRoot (Hash.of 7) =
        ((⟨[], [.hash (.of 7)]⟩ : Eternity), none) ∧
      ((⟨[], [.hash (.of 7)]⟩ : Eternity).insertCR (.keep 4) =
          ((⟨[], [.hash (.of 7)]⟩ : Eternity), some .epochForgotten) ∧
        (⟨[], [.hash (.of 7)]⟩ : Eternity).insert .keep 4 =
          ((⟨[], [.hash (.of 7)]⟩ : Eternity), some 4) ∧
        ((⟨[], [.hash (.of 7)]⟩ : Eternity).insert .keep 4).1.len =
          (⟨[], [.hash (.of 7)]⟩ : Eternity).len ∧
        ((⟨[], [.hash (.of 7)]⟩ : Eternity).insert .keep 4).1.root =
          (⟨[], [.hash (.of 7)]⟩ : Eternity).root) :=
  ⟨by decide, epoch_root_insert_rejected Eternity.empty _ (Hash.of 7) 4 (by decide)⟩

/-! ## Claim C7: error payloads -/

/-- **C7 (counterexample).** `insert_block_root` failures cannot return the
rejected input: two distinct block roots rejected in the same state produce
identical error values, so the error contains no trace of the input. -/
theorem root_error_payload_cex :
    ((Eternity.empty.insertEpochRoot (Hash.of 0)).1.insertBlockRoot (Hash.of 1)).2 =
        ((Eternity.empty.insertEpochRoot (Hash.of 0)).1.insertBlockRoot (Hash.of 2)).2 ∧
      ((Eternity.empty.insertEpochRoot (Hash.of 0)).1.insertBlockRoot (Hash.of 1)).2 =
        some .epochForgotten ∧
      Hash.of 1 ≠ Hash.of 2 := by decide

/-- **C7 (amended).** Failing `insert`, `insert_block` and `insert_epoch`
calls return the rejected input unchanged inside the error; the summary-only
variants `insert_block_root` and `insert_epoch_root` report only a typed
condition whose value is independent of the rejected root hash. -/
theorem insertion_errors_return_input :
    (∀ (s : Eternity) (w : Witness) (c x : Commitment),
        (s.insert w c).2 = some x → x = c) ∧
      (∀ (s : Eternity) (b : Block) (err : InsertBlockError),
        (s.insertBlock b).2 = some err → err.block = b) ∧
      (∀ (s : Eternity) (e : Epoch) (err : InsertEpochError),
        (s.insertEpoch e).2 = some err → err.epoch = e) ∧
      (∀ (s : Eternity) (h h' : Hash),
        (s.insertBlockRoot h).2 = (s.insertBlockRoot h').2) ∧
      (∀ (s : Eternity) (h h' : Hash),
        (s.insertEpochRoot h).2 = (s.insertEpochRoot h').2) := by
  refine ⟨?_, ?_, ?_, ?_, ?_⟩
  · intro s w c x hx
    have key : ∀ (item : Insert Commitment),
        (let r := s.insertCR item
          if r.2.isSome then (r.1, some c) else ((r.1, none) : Eternity × Option Commitment)).2
            = some x → x = c := by
      intro item hx'
      by_cases hp : (s.insertCR item).2.isSome
      · simp only [hp, if_true] at hx'
        exact (Option.some.inj hx').symm
      · simp only [hp, Bool.false_eq_true, if_false] at hx'
        cases hx'
    cases w
    · exact key (.keep c) hx
    · exact key (.hash (.of c)) hx
  · intro s b err
    unfold Eternity.insertBlock
    by_cases hp : (if s.inner.isEmpty then s.insertEpoch Epoch.new else (s, none)).2.isSome
    · simp only [hp, if_true]
      intro herr; injection herr with hinj; subst hinj; rfl
    · simp only [hp, Bool.false_eq_true, if_false]
      rcases hf : focusOf (if s.inner.isEmpty then s.insertEpoch Epoch.new
          else (s, none)).1.inner with _ | e | hh
      · intro herr; try simp only at herr
        injection herr with hinj; subst hinj; rfl
      · by_cases hcap : cap ≤ e.length
        · simp only [hcap, if_true]
          intro herr; try simp only at herr
          injection herr with hinj; subst hinj; rfl
        · simp only [hcap, if_false]
          intro herr; try simp only at herr
          exact Option.noConfusion herr
      · intro herr; try simp only at herr
        injection herr with hinj; subst hinj; rfl
  · intro s e err herr
    unfold Eternity.insertEpoch at herr
    by_cases hp : (s.insertEpochOrRoot (.keep e)).2.isSome
    · simp only [hp, if_true] at herr
      injection herr with hinj
      subst hinj
      rfl
    · simp only [hp, Bool.false_eq_true, if_false] at herr
      cases herr
  · intro s h h'
    unfold Eternity.insertBlockRoot
    by_cases hp : (if s.inner.isEmpty then s.insertEpoch Epoch.new else (s, none)).2.isSome
    · simp only [hp, if_true]
    · simp only [hp, Bool.false_eq_true, if_false]
      rcases hf : focusOf (if s.inner.isEmpty then s.insertEpoch Epoch.new
          else (s, none)).1.inner with _ | e | hh
      · rfl
      · by_cases hcap : cap ≤ e.length <;> simp [hcap]
      · rfl
  · intro s h h'
    unfold Eternity.insertEpochRoot Eternity.insertEpochOrRoot
    by_cases hcap : cap ≤ s.inner.length <;> simp [hcap]

/-- Witness for C7 (amended): a failing `insert` returns its commitment, and
the block-root error outcome is the same for distinct rejected roots. -/
theorem insertion_errors_return_input_witness :
    (((⟨[], [.hash (.of 7)]⟩ : Eternity).insert .keep 4).2 = some 4 → (4 : Nat) = 4) ∧
      ((⟨[], [.hash (.of 7)]⟩ : Eternity).insertBlockRoot (Hash.of 1)).2 =
        ((⟨[], [.hash (.of 7)]⟩ : Eternity).insertBlockRoot (Hash.of 2)).2 :=
  ⟨insertion_errors_return_input.1 _ .keep 4 4,
    insertion_errors_return_input.2.2.2.1 _ (Hash.of 1) (Hash.of 2)⟩

/-! ## Claim C10: a Forget-mode re-insertion does not evict -/

/-- **C10.** If `c` is indexed at position `p` and `insert(Forget, c)`
succeeds, the global index is untouched (`c` still maps to `p`),
`witness(c)` still proves the old position, the old leaf is still
materialized, and only the raw hash of `c` is appended at a fresh position. -/
theorem forget_mode_no_evict (s B : Eternity) (c : Commitment) (p : Pos)
    (hv : s.Valid) (hg : mapGet s.index c = some p)
    (hok : s.insert .forget c = (B, none)) :
    B.index = s.index ∧
      mapGet B.index c = some p ∧
      (∃ pf, B.witness c = some pf ∧ pf.position = p) ∧
      B.leafAt p = some (.keep c) ∧
      (∃ q, s.leafAt q = none ∧ B.leafAt q = some (.hash (Hash.of c))) := by
  have hcr := insert_ok_insertCR s B .forget c hok
  obtain ⟨T, e, b, hT, hfT, hfb, hbl, hmatch⟩ := insertCR_ok_shape s _ B hcr
  simp only at hmatch
  have hmem := mem_of_mapGet s.index c p hg
  have hleaf : tierLeafAt s.inner p = some (.keep c) := hv (c, p) hmem
  have hsne : s.inner ≠ [] := by
    intro hnil
    rw [hnil, tierLeafAt_nil] at hleaf
    cases hleaf
  have hTs : T = s.inner := by
    rcases hT with ⟨hnil, _⟩ | ⟨_, hTs⟩
    · exact absurd hnil hsne
    · exact hTs
  subst hTs
  subst hmatch
  refine ⟨rfl, hg, ?_, ?_, ?_⟩
  · exact witness_of_leafAt _ c p hg
      (tierLeafAt_tset_preserve _ _ _ _ _ _ hfT hfb hleaf)
  · exact tierLeafAt_tset_preserve _ _ _ _ _ _ hfT hfb hleaf
  · exact ⟨newPos s.inner e b, tierLeafAt_newPos_none _ _ _ hfT hfb,
      tierLeafAt_tset_newPos _ _ _ _ hfT hfb⟩

/-- Witness for C10 on the concrete one-commitment accumulator. -/
theorem forget_mode_no_evict_witness :
    exOne.Valid ∧
      ((exOne.insert .forget 0).1.index = exOne.index ∧
        mapGet (exOne.insert .forget 0).1.index 0 = some ⟨0, 0, 0⟩ ∧
        (∃ pf, (exOne.insert .forget 0).1.witness 0 = some pf ∧
          pf.position = ⟨0, 0, 0⟩) ∧
        (exOne.insert .forget 0).1.leafAt ⟨0, 0, 0⟩ = some (.keep 0) ∧
        (∃ q, exOne.leafAt q = none ∧
          (exOne.insert .forget 0).1.leafAt q = some (.hash (Hash.of 0)))) :=
  ⟨by decide,
    forget_mode_no_evict exOne _ 0 ⟨0, 0, 0⟩ (by decide) (by decide) (by decide)⟩

/-! ## Claim C3: re-insertion eviction -/

/-- **C3.** If `c` is indexed at `pOld` and `insert(Keep, c)` succeeds, the
index afterwards maps `c` only to the new position, `witness(c)` proves the
new position, the old position's leaf is forgotten — summarized to its hash
and no longer witnessable — while both leaves still carry the hash of `c`
into the root. -/
theorem reinsertion_eviction (s B : Eternity) (c : Commitment) (pOld : Pos)
    (hv : s.Valid) (hg : mapGet s.index c = some pOld)
    (hok : s.insert .keep c = (B, none)) :
    ∃ pNew, mapGet B.index c = some pNew ∧ pNew ≠ pOld ∧
      (∃ pf, B.witness c = some pf ∧ pf.position = pNew) ∧
      B.leafAt pOld = some (.hash (Hash.of c)) ∧
      tierWitness B.inner pOld = none ∧
      B.leafAt pNew = some (.keep c) := by
  have hcr := insert_ok_insertCR s B .keep c hok
  obtain ⟨T, e, b, hT, hfT, hfb, hbl, hmatch⟩ := insertCR_ok_shape s _ B hcr
  simp only at hmatch
  obtain ⟨hBidx, hrest⟩ := hmatch
  have hmem := mem_of_mapGet s.index c pOld hg
  have hleaf : tierLeafAt s.inner pOld = some (.keep c) := hv (c, pOld) hmem
  have hsne : s.inner ≠ [] := by
    intro hnil
    rw [hnil, tierLeafAt_nil] at hleaf
    cases hleaf
  have hTs : T = s.inner := by
    rcases hT with ⟨hnil, _⟩ | ⟨_, hTs⟩
    · exact absurd hnil hsne
    · exact hTs
  subst hTs
  rcases hrest with ⟨hnone, _⟩ | ⟨pOld', hsome, hBinner⟩
  · rw [hg] at hnone; cases hnone
  · rw [hg] at hsome
    have hpp := Option.some.inj hsome
    subst hpp
    have hnewnone : tierLeafAt s.inner (newPos s.inner e b) = none :=
      tierLeafAt_newPos_none _ _ _ hfT hfb
    have hne : newPos s.inner e b ≠ pOld := by
      intro heq
      rw [heq] at hnewnone
      rw [hnewnone] at hleaf
      cases hleaf
    have ht₁old : tierLeafAt (tset s.inner e (.keep c) b) pOld = some (.keep c) :=
      tierLeafAt_tset_preserve _ _ _ _ _ _ hfT hfb hleaf
    have ht₁new : tierLeafAt (tset s.inner e (.keep c) b) (newPos s.inner e b) =
        some (.keep c) :=
      tierLeafAt_tset_newPos _ _ _ _ hfT hfb
    have hBold : tierLeafAt B.inner pOld = some (.hash (.of c)) := by
      rw [hBinner]
      exact tierForget_leafAt_self _ _ _ ht₁old
    have hBnew : tierLeafAt B.inner (newPos s.inner e b) = some (.keep c) := by
      rw [hBinner, tierForget_leafAt_ne _ _ _ hne]
      exact ht₁new
    have hBg : mapGet B.index c = some (newPos s.inner e b) := by
      rw [hBidx]
      exact mapGet_insert_self ..
    exact ⟨newPos s.inner e b, hBg, hne, witness_of_leafAt B c _ hBg hBnew,
      hBold, tierWitness_none_of_hash _ _ _ hBold, hBnew⟩

/-- Witness for C3: re-inserting commitment `0` with `Keep` on the concrete
one-commitment accumulator evicts the old position. -/
theorem reinsertion_eviction_witness :
    exOne.Valid ∧
      (∃ pNew, mapGet (exOne.insert .keep 0).1.index 0 = some pNew ∧
        pNew ≠ ⟨0, 0, 0⟩ ∧
        (∃ pf, (exOne.insert .keep 0).1.witness 0 = some pf ∧ pf.position = pNew) ∧
        (exOne.insert .keep 0).1.leafAt ⟨0, 0, 0⟩ = some (.hash (Hash.of 0)) ∧
        tierWitness (exOne.insert .keep 0).1.inner ⟨0, 0, 0⟩ = none ∧
        (exOne.insert .keep 0).1.leafAt pNew = some (.keep 0)) :=
  ⟨by decide,
    reinsertion_eviction exOne _ 0 ⟨0, 0, 0⟩ (by decide) (by decide) (by decide)⟩

/-! ## Claim C5: the Keep/Keep/Discard scenario -/

/-- **C5.** On the fresh-accumulator scenario `insert(Keep, 0)`,
`insert(Keep, 1)`, `insert(Forget, 2)`: the two kept commitments are
witnessable, the discarded one is not, and `root()` differs from the empty
root — but `len()` returns `2^32 + 3·2^16 = 4295163904`, not the documented
count of 3, because the formula shifts every term. -/
theorem keep_keep_discard_scenario :
    (scenarioKKD.witness 0).isSome = true ∧
      (scenarioKKD.witness 1).isSome = true ∧
      scenarioKKD.witness 2 = none ∧
      scenarioKKD.len = 4295163904 ∧
      scenarioKKD.len ≠ 3 ∧
      scenarioKKD.root ≠ Eternity.empty.root := by decide

/-! ## Iteration lemmas for the capacity boundary and `len` accounting -/

theorem repForget_base (c : Commitment) :
    Eternity.empty.insert .forget c = (repForgetState c 1, none) := rfl

theorem repForget_step (c : Commitment) (n : Nat) (hn : n < cap) :
    (repForgetState c n).insert .forget c = (repForgetState c (n + 1), none) := by
  have hcap : ¬ cap ≤ (List.replicate n (Insert.hash (Hash.of c) : Insert Commitment)).length := by
    simp [Nat.not_le, hn]
  have hn' : ¬ cap ≤ n := Nat.not_le.2 hn
  unfold repForgetState Eternity.insert Eternity.insertCR insertCore epochInsertItem epochEnsure blockAppend
  simp only [List.isEmpty_cons, Bool.false_eq_true, if_false, Option.isSome_none,
    focusOf, List.length_cons, List.length_nil, List.length_replicate]
  simp [hn', List.replicate_succ']

theorem insertIterF_eq (c : Commitment) :
    ∀ n, 1 ≤ n → n ≤ cap → insertIterF c n = repForgetState c n := by
  intro n
  induction n with
  | zero => intro h1 _; exact absurd h1 (by norm_num)
  | succ m ih =>
    intro _ h2
    rcases Nat.eq_zero_or_pos m with h0 | hpos
    · subst h0
      show ((insertIterF c 0).insert .forget c).1 = repForgetState c 1
      rw [show insertIterF c 0 = Eternity.empty from rfl, repForget_base]
    · have hm : m < cap := Nat.lt_of_succ_le h2
      show ((insertIterF c m).insert .forget c).1 = repForgetState c (m + 1)
      rw [ih hpos (Nat.le_of_lt hm), repForget_step c m hm]

theorem repForget_full_insertCR (c c' : Commitment) :
    (repForgetState c cap).insertCR (.keep c') = (repForgetState c cap, some .blockFull) := by
  unfold repForgetState Eternity.insertCR insertCore epochInsertItem epochEnsure blockAppend
  simp [focusOf]

theorem repForget_full_insert (c c' : Commitment) :
    (repForgetState c cap).insert .keep c' = (repForgetState c cap, some c') := by
  unfold Eternity.insert
  simp only [repForget_full_insertCR c c', Option.isSome_some, if_true]

theorem blockRoot_base (h : Hash) :
    Eternity.empty.insertBlockRoot h = (blockRootState h 1, none) := rfl

theorem blockRoot_step (h : Hash) (n : Nat) (hn : n < cap) :
    (blockRootState h n).insertBlockRoot h = (blockRootState h (n + 1), none) := by
  have hn' : ¬ cap ≤ n := Nat.not_le.2 hn
  unfold blockRootState Eternity.insertBlockRoot
  simp only [List.isEmpty_cons, Bool.false_eq_true, if_false, Option.isSome_none,
    focusOf, List.length_cons, List.length_nil, List.length_replicate]
  simp [hn', List.replicate_succ']

theorem insertIterBR_eq (h : Hash) :
    ∀ n, 1 ≤ n → n ≤ cap → insertIterBR h n = blockRootState h n := by
  intro n
  induction n with
  | zero => intro h1 _; exact absurd h1 (by norm_num)
  | succ m ih =>
    intro _ h2
    rcases Nat.eq_zero_or_pos m with h0 | hpos
    · subst h0
      show ((insertIterBR h 0).insertBlockRoot h).1 = blockRootState h 1
      rw [show insertIterBR h 0 = Eternity.empty from rfl, blockRoot_base]
    · have hm : m < cap := Nat.lt_of_succ_le h2
      show ((insertIterBR h m).insertBlockRoot h).1 = blockRootState h (m + 1)
      rw [ih hpos (Nat.le_of_lt hm), blockRoot_step h m hm]

theorem blockRoot_full_fails (h h' : Hash) :
    (blockRootState h cap).insertBlockRoot h' = (blockRootState h cap, some .epochFull) := by
  unfold blockRootState Eternity.insertBlockRoot
  simp [focusOf]

theorem epochRoot_step (h : Hash) (n : Nat) (hn : n < cap) :
    (epochRootState h n).insertEpochRoot h = (epochRootState h (n + 1), none) := by
  have hn' : ¬ cap ≤ n := Nat.not_le.2 hn
  unfold epochRootState Eternity.insertEpochRoot Eternity.insertEpochOrRoot
  simp only [List.length_replicate]
  simp [hn', List.replicate_succ']

theorem insertIterER_eq (h : Hash) :
    ∀ n, n ≤ cap → insertIterER h n = epochRootState h n := by
  intro n
  induction n with
  | zero => intro _; rfl
  | succ m ih =>
    intro h2
    have hm : m < cap := Nat.lt_of_succ_le h2
    show ((insertIterER h m).insertEpochRoot h).1 = epochRootState h (m + 1)
    rw [ih (Nat.le_of_lt hm), epochRoot_step h m hm]

theorem epochRoot_full_fails (h h' : Hash) :
    (epochRootState h cap).insertEpochRoot h' = (epochRootState h cap, some .mk) := by
  unfold epochRootState Eternity.insertEpochRoot Eternity.insertEpochOrRoot
  simp [focusOf]

/-! ## Claim C8: capacity boundary at all three levels -/

/-- **C8.** Starting from an empty accumulator, each of the first 65,536
commitment insertions succeeds and the 65,537th fails with the block-level
full error, returning the commitment unchanged; likewise 65,536 block roots
fit in an epoch with the 65,537th failing `EpochFull`, and 65,536 epoch roots
fit at the top with the 65,537th failing the top-level `Full` error — a hard
ceiling of 65,536³ = 2^48 leaves. -/
theorem capacity_boundary (c c' : Commitment) (h h' : Hash) :
    (∀ n, n < cap → (insertIterF c n).insert .forget c = (insertIterF c (n + 1), none)) ∧
      (insertIterF c cap).insert .keep c' = (insertIterF c cap, some c') ∧
      (insertIterF c cap).insertCR (.keep c') = (insertIterF c cap, some .blockFull) ∧
      (∀ n, n < cap → (insertIterBR h n).insertBlockRoot h = (insertIterBR h (n + 1), none)) ∧
      (insertIterBR h cap).insertBlockRoot h' = (insertIterBR h cap, some .epochFull) ∧
      (∀ n, n < cap → (insertIterER h n).insertEpochRoot h = (insertIterER h (n + 1), none)) ∧
      (insertIterER h cap).insertEpochRoot h' = (insertIterER h cap, some .mk) ∧
      cap * cap * cap = 2 ^ 48 := by
  have hcappos : (1 : Nat) ≤ cap := by norm_num [cap]
  refine ⟨?_, ?_, ?_, ?_, ?_, ?_, ?_, by norm_num [cap]⟩
  · intro n hn
    show _ = (((insertIterF c n).insert .forget c).1, none)
    rcases Nat.eq_zero_or_pos n with h0 | hpos
    · subst h0
      rw [show insertIterF c 0 = Eternity.empty from rfl, repForget_base]
    · rw [insertIterF_eq c n hpos (Nat.le_of_lt hn), repForget_step c n hn]
  · rw [insertIterF_eq c cap hcappos le_rfl]
    exact repForget_full_insert c c'
  · rw [insertIterF_eq c cap hcappos le_rfl]
    exact repForget_full_insertCR c c'
  · intro n hn
    show _ = (((insertIterBR h n).insertBlockRoot h).1, none)
    rcases Nat.eq_zero_or_pos n with h0 | hpos
    · subst h0
      rw [show insertIterBR h 0 = Eternity.empty from rfl, blockRoot_base]
    · rw [insertIterBR_eq h n hpos (Nat.le_of_lt hn), blockRoot_step h n hn]
  · rw [insertIterBR_eq h cap hcappos le_rfl]
    exact blockRoot_full_fails h h'
  · intro n hn
    show _ = (((insertIterER h n).insertEpochRoot h).1, none)
    rw [insertIterER_eq h n (Nat.le_of_lt hn), epochRoot_step h n hn]
  · rw [insertIterER_eq h cap le_rfl]
    exact epochRoot_full_fails h h'

/-- Witness for C8 at concrete inputs: the first insertion at each level
succeeds, and the capacity equation holds. -/
theorem capacity_boundary_witness :
    (insertIterF 0 0).insert .forget 0 = (insertIterF 0 1, none) ∧
      (insertIterBR (Hash.of 5) 0).insertBlockRoot (Hash.of 5) =
        (insertIterBR (Hash.of 5) 1, none) ∧
      (insertIterER (Hash.of 5) 0).insertEpochRoot (Hash.of 5) =
        (insertIterER (Hash.of 5) 1, none) ∧
      cap * cap * cap = 2 ^ 48 :=
  ⟨(capacity_boundary 0 1 (Hash.of 5) (Hash.of 6)).1 0 (by norm_num [cap]),
    (capacity_boundary 0 1 (Hash.of 5) (Hash.of 6)).2.2.2.1 0 (by norm_num [cap]),
    (capacity_boundary 0 1 (Hash.of 5) (Hash.of 6)).2.2.2.2.2.1 0 (by norm_num [cap]),
    (capacity_boundary 0 1 (Hash.of 5) (Hash.of 6)).2.2.2.2.2.2.2⟩

/-! ## Claim C6: `len` accounting -/

/-- `forget` never changes `len()`. -/
theorem forget_len (s : Eternity) (c : Commitment) :
    ((s.forget c).1).len = s.len := by
  unfold Eternity.forget
  cases h : mapGet s.index c with
  | none => rfl
  | some p =>
    show Eternity.len ⟨mapRemove s.index c, (tierForget s.inner p).1⟩ = s.len
    unfold Eternity.len
    simp only
    rw [(tierForget_len s.inner p).1, (tierForget_len s.inner p).2]

theorem len_repForget (c : Commitment) (n : Nat) :
    (repForgetState c n).len = 2 ^ 32 + ((n % 65536) * 2 ^ 16) % 2 ^ 32 := by
  simp [Eternity.len, repForgetState, lenFocusTerm, focusOf]

/-- **C6 (evaluation at the failing input).** The 65,535-item focused block
state is reachable by iterated insertion; inserting the 65,536th item
succeeds, yet `len()` drops from 8,589,869,056 to 4,294,967,296 because the
`u32` shift of the block length wraps to zero — so `len()` is not
monotonically nondecreasing.  A summary-only focused epoch or block
contributes `0xFFFF0000 = 4,294,901,760` to `len()`, not the claimed maximum
fill.  Forgetting does leave `len()` unchanged. -/
theorem len_accounting_bug (c : Commitment) :
    insertIterF c 65535 = repForgetState c 65535 ∧
      (repForgetState c 65535).insert .forget c = (repForgetState c 65536, none) ∧
      (repForgetState c 65535).len = 8589869056 ∧
      (repForgetState c 65536).len = 4294967296 ∧
      (repForgetState c 65536).len < (repForgetState c 65535).len ∧
      ((Eternity.empty.insertEpochRoot (Hash.of 0)).1).len = 8589869056 ∧
      ((Eternity.empty.insertBlockRoot (Hash.of 0)).1).len = 8589869056 ∧
      ∀ (s : Eternity) (c' : Commitment), ((s.forget c').1).len = s.len := by
  refine ⟨insertIterF_eq c 65535 (by norm_num) (by norm_num [cap]),
    repForget_step c 65535 (by norm_num [cap]), ?_, ?_, ?_, by decide, by decide, forget_len⟩
  · rw [len_repForget]; norm_num
  · rw [len_repForget]; norm_num
  · rw [len_repForget, len_repForget]; norm_num

/-! ## Claim C2: witness correctness -/

/-- **C2.** Witness correctness: in any accumulator state `C` satisfying the
index invariant, every indexed commitment `c` gets `witness(c) = Some proof`
with `verify(proof, root())` succeeding; and for the root of any state `A`
captured before `c`'s (successful) insertion — `A` reaches the inserting
state `X`, and the post-insertion state `B` reaches `C` — verifying the same
proof against `A.root` fails with a digest mismatch. -/
theorem witness_verify_correct (A X B C : Eternity) (w : Witness) (c : Commitment) (p : Pos)
    (hAX : Reach A X) (hins : X.insert w c = (B, none)) (hBC : Reach B C)
    (hv : C.Valid) (hidx : mapGet C.index c = some p) :
    ∃ pf, C.witness c = some pf ∧ verify pf C.root = .ok ⟨pf, C.root⟩ ∧
      verify pf A.root = .error .digestMismatch := by
  have hmem : (c, p) ∈ C.index := mem_of_mapGet _ _ _ hidx
  have hl : C.leafAt p = some (.keep c) := hv (c, p) hmem
  obtain ⟨pf, hw, hrc⟩ := witness_recompute C c p hidx hl
  have hne : A.root ≠ C.root := insert_root_forever A X B C w c hAX hins hBC
  refine ⟨pf, hw, ?_, ?_⟩
  · simp only [verify, hrc]
    exact if_pos trivial
  · simp only [verify, hrc]
    rw [if_neg (fun hh => hne hh.symm)]

theorem witness_verify_correct_witness :
    ∃ pf, ((Eternity.empty.insert .keep 0).1).witness 0 = some pf ∧
      verify pf ((Eternity.empty.insert .keep 0).1).root =
        .ok ⟨pf, ((Eternity.empty.insert .keep 0).1).root⟩ ∧
      verify pf Eternity.empty.root = .error .digestMismatch :=
  witness_verify_correct Eternity.empty Eternity.empty (Eternity.empty.insert .keep 0).1
    (Eternity.empty.insert .keep 0).1 .keep 0 ⟨0, 0, 0⟩ (Reach.refl _) (by decide)
    (Reach.refl _) (by decide) (by decide)

end Penumbra
